import Mathlib

/-!
Verification of the conversational-agent orchestration core (`ez_agent`,
file `src/ez_agent/agent/agent_async.py`) against its natural-language
specification.

The Python code is shallowly embedded: message dictionaries become a
structure with `Option` fields (a `none` field models an absent key),
Python `list.remove` becomes `List.erase` (first occurrence, value
equality, exactly as CPython), the registry dict becomes an association
list in insertion order, and real time is passed explicitly as a `now`
parameter.  Stateful loops become folds over the same iteration space the
source uses.
-/

namespace EzAgent

/-- A tool call as stored on an assistant message
(`ChatCompletionMessageToolCallParam`): `{id, type, function {name, arguments}}`. -/
structure FunctionBody where
  name : String
  arguments : String
deriving DecidableEq, Repr

/-- A finalized tool call `{id, type, function}`.  The code always sets
`type` to the string `"function"`. -/
structure ToolCallParam where
  id : String
  type : String
  function : FunctionBody
deriving DecidableEq, Repr

/-- One message dictionary of the conversation store (`MessageParam` in
`types.py`).  Each `Option` field models a possibly-absent dictionary key:
`role`, `content`, optional `time` (seconds since epoch), optional `name`,
assistant-only `tool_calls`, tool-only `tool_call_id`. -/
structure Message where
  role : String
  content : Option String
  time : Option Int
  name : Option String
  tool_calls : Option (List ToolCallParam)
  tool_call_id : Option String
deriving DecidableEq, Repr

/-- A registered capability: `foldable` flag plus the invocation function
(`str(called_tool(**...))` abstracted as text-to-text).  The registry maps
names to capabilities, so the name lives in the registry key. -/
structure SimpleTool where
  foldable : Bool
  fn : String → String

/-- The tool registry `self._tools`, modelled as an association list in
insertion order (a Python dict).  `None` and `{}` are collapsed into `[]`:
the code only ever tests the dict for truthiness and by key lookup. -/
def Registry := List (String × SimpleTool)

/-- `self._tools.get(name)`: first binding of `name`. -/
def lookupTool : List (String × SimpleTool) → String → Option SimpleTool
  | [], _ => none
  | (k, t) :: rest, n => if k = n then some t else lookupTool rest n

/-! ## Lifecycle Manager: `clear_msg_by_time` (source lines 368-378)

```python
for message in self.messages[1:]:
    if int(time.time()) - message.get("time", 0) > expire_time:
        self.messages.remove(message)
```

The slice `self.messages[1:]` is evaluated once, so the loop iterates over
a snapshot of the tail while `remove` deletes the first value-equal
occurrence from the live list.  `int(time.time())` is the explicit `now`
parameter; a missing `"time"` key defaults to `0`. -/

/-- Whether `clear_msg_by_time` treats message `m` as expired at time
`now`: `now - m.get("time", 0) > expire_time`. -/
def msgExpired (now expireTime : Int) (m : Message) : Prop :=
  now - (m.time.getD 0) > expireTime

instance (now expireTime : Int) (m : Message) :
    Decidable (msgExpired now expireTime m) := by
  unfold msgExpired; infer_instance

/-- One iteration of the `clear_msg_by_time` loop body. -/
def clearStep (now expireTime : Int) (st : List Message) (m : Message) :
    List Message :=
  if msgExpired now expireTime m then st.erase m else st

/-- `clear_msg_by_time(expire_time)` (source lines 368-378), with the
re-read wall clock fixed to `now`. -/
def clear_msg_by_time (now expireTime : Int) (msgs : List Message) :
    List Message :=
  (msgs.drop 1).foldl (clearStep now expireTime) msgs

/-- The system message used in concrete examples (`__init__` line 50). -/
def sysMsg : Message :=
  { role := "system", content := some "You are a helpful assistant."
    time := none, name := none, tool_calls := none, tool_call_id := none }

/-- A user message that carries no `"time"` key. -/
def untimedUserMsg : Message :=
  { role := "user", content := some "hello"
    time := none, name := none, tool_calls := none, tool_call_id := none }

/-- Claim C1, counterexample.  At `now = 100` with `expire_time = 10`,
pruning `[system, user-without-timestamp]` removes the untimestamped user
message (its missing `"time"` defaults to `0`, so `100 - 0 > 10`),
contradicting "never removes a message that carries no timestamp". -/
theorem clear_msg_by_time_prunes_untimestamped_cex :
    clear_msg_by_time 100 10 [sysMsg, untimedUserMsg] = [sysMsg] := by
  decide

theorem clearStep_of_ne_head (now T : Int) (a m : Message) (st : List Message)
    (hne : m ≠ a) :
    clearStep now T (a :: st) m =
      a :: clearStep now T st m := by
  unfold clearStep
  split
  · rw [List.erase_cons_tail
      (by simp only [beq_iff_eq]; exact fun h => hne h.symm)]
  · rfl

/-- The loop commutes with an unremovable head: if no expired message of
the iteration snapshot equals `a`, the head `a` survives and the loop acts
on the rest of the state. -/
theorem foldl_clearStep_cons (now T : Int) (a : Message) :
    ∀ (s st : List Message),
      (∀ m ∈ s, msgExpired now T m → m ≠ a) →
      s.foldl (clearStep now T) (a :: st) =
        a :: s.foldl (clearStep now T) st := by
  intro s
  induction s with
  | nil => intro st _; rfl
  | cons m rest ih =>
    intro st h
    simp only [List.foldl_cons]
    by_cases hexp : msgExpired now T m
    · rw [clearStep_of_ne_head now T a m st (h m (List.mem_cons_self m rest) hexp)]
      exact ih _ fun x hx => h x (List.mem_cons_of_mem m hx)
    · have hm : clearStep now T (a :: st) m = a :: st := by
        unfold clearStep; rw [if_neg hexp]
      have hm' : clearStep now T st m = st := by
        unfold clearStep; rw [if_neg hexp]
      rw [hm]
      have := ih st fun x hx => h x (List.mem_cons_of_mem m hx)
      rw [this, hm']

/-- Running the loop with the iteration snapshot equal to the state
filters out exactly the expired messages. -/
theorem foldl_clearStep_self (now T : Int) :
    ∀ t : List Message,
      t.foldl (clearStep now T) t =
        t.filter (fun m => !decide (msgExpired now T m)) := by
  intro t
  induction t with
  | nil => rfl
  | cons m rest ih =>
    simp only [List.foldl_cons]
    by_cases hexp : msgExpired now T m
    · have h1 : clearStep now T (m :: rest) m = rest := by
        unfold clearStep
        rw [if_pos hexp, List.erase_cons_head]
      rw [h1, ih, List.filter_cons]
      simp [hexp]
    · have h1 : clearStep now T (m :: rest) m = m :: rest := by
        unfold clearStep; rw [if_neg hexp]
      rw [h1]
      have hcomm := foldl_clearStep_cons now T m rest rest
        (fun x _ hx => fun heq => hexp (heq ▸ hx))
      rw [hcomm, ih, List.filter_cons]
      simp [hexp]

/-- Claim C1, amended.  Provided the head message does not reappear
(value-equal) in the tail, `clear_msg_by_time` keeps the head untouched
and keeps exactly the tail messages whose effective timestamp — `0` when
the `"time"` key is absent — is within `expire_time` of `now`.  In
particular untimestamped tail messages are treated as timestamp `0` and
are pruned whenever `now - 0 > expire_time`. -/
theorem clear_msg_by_time_spec (now T : Int) (hd : Message)
    (tl : List Message) (hnd : hd ∉ tl) :
    clear_msg_by_time now T (hd :: tl) =
      hd :: tl.filter (fun m => !decide (msgExpired now T m)) := by
  unfold clear_msg_by_time
  simp only [List.drop_one, List.tail_cons]
  rw [foldl_clearStep_cons now T hd tl tl
    (fun m hm _ => fun heq => hnd (heq ▸ hm))]
  rw [foldl_clearStep_self]

/-- Witness for the amended C1 at a concrete store: `[system, recent user,
expired user]` keeps the system message and the recent user message and
drops the expired one. -/
theorem clear_msg_by_time_spec_witness :
    (sysMsg ∉ [{ untimedUserMsg with time := some 95 },
               { untimedUserMsg with time := some 5 }]) ∧
    clear_msg_by_time 100 10
        [sysMsg, { untimedUserMsg with time := some 95 },
         { untimedUserMsg with time := some 5 }] =
      [sysMsg, { untimedUserMsg with time := some 95 }] := by
  refine ⟨by decide, ?_⟩
  rw [clear_msg_by_time_spec 100 10 sysMsg _ (by decide)]
  decide

/-! ## Concurrency Guard: `copy` and `safe_modify` (source lines 322-362)

```python
@asynccontextmanager
async def safe_modify(self, merge_messages=True):
    if self.message_expire_time:
        self.clear_msg_by_time(self.message_expire_time)
    _agent = self.copy()
    yield _agent
    if merge_messages:
        added_messages = _agent.messages
        for message in self.messages:
            if not message in added_messages:
                break
            added_messages.remove(message)
        self.messages.extend(added_messages)
```

The agent is modelled with its value-carrying attributes; `copy()` deep
copies the message list (value identity in a pure model) and shares the
registry and configuration.  The context body is a function acting on the
private copy; the original is not touched while the body runs, matching
the cooperative-scheduling assumption.  Floating-point sampling
parameters are omitted from the model. -/

/-- The agent state (`AsyncAgent.__init__`, lines 27-68): registry,
configuration strings, expiry setting, handler registries (modelled as
opaque tokens), and the conversation store. -/
structure Agent where
  tools : List (String × SimpleTool)
  model : String
  apiKey : String
  baseUrl : String
  instructions : String
  messageExpireTime : Option Int
  responseHandlers : List Nat
  streamChunkHandlers : List Nat
  toolCallHandlers : List Nat
  messages : List Message

/-- `copy()` (source lines 322-344): shares `_tools`/configuration, deep
copies `messages`, shallow copies the handler lists — all of which
coincide with value copies in the pure model. -/
def copyAgent (a : Agent) : Agent :=
  { tools := a.tools
    model := a.model
    apiKey := a.apiKey
    baseUrl := a.baseUrl
    instructions := a.instructions
    messageExpireTime := a.messageExpireTime
    responseHandlers := a.responseHandlers
    streamChunkHandlers := a.streamChunkHandlers
    toolCallHandlers := a.toolCallHandlers
    messages := a.messages }

/-- Python truthiness of `self.message_expire_time` (`None` and `0` are
falsy). -/
def expireTruthy (a : Agent) : Bool :=
  match a.messageExpireTime with
  | none => false
  | some t => t != 0

/-- The merge-back loop of `safe_modify`: walk the original store in
order, removing each message (first value-equal occurrence) from the
private copy's list, stopping at the first original message absent from
it; what remains is appended. -/
def mergeAdded : List Message → List Message → List Message
  | [], added => added
  | m :: rest, added =>
      if m ∈ added then mergeAdded rest (added.erase m) else added

/-- The snapshot `safe_modify` takes at entry (source lines 352-354): the
original agent, its store pruned first when the expiry setting is
truthy. -/
def entrySnapshot (now : Int) (a : Agent) : Agent :=
  if expireTruthy a then
    { a with messages :=
        clear_msg_by_time now (a.messageExpireTime.getD 0) a.messages }
  else a

/-- `safe_modify(merge_messages)` run to completion (source lines
346-362): prune expired messages of the original when the expiry setting
is truthy, hand a copy to the body, then (if merging) append the computed
remainder of the copy's store to the original. -/
def safe_modify (now : Int) (mergeMessages : Bool) (body : Agent → Agent)
    (a : Agent) : Agent :=
  let a1 := entrySnapshot now a
  let c := body (copyAgent a1)
  if mergeMessages then
    { a1 with messages := a1.messages ++ mergeAdded a1.messages c.messages }
  else a1

/-- The entry snapshot differs from the original agent in its message
list only. -/
theorem entrySnapshot_eta (now : Int) (a : Agent) :
    entrySnapshot now a =
      { a with messages := (entrySnapshot now a).messages } := by
  unfold entrySnapshot
  by_cases he : expireTruthy a = true
  · rw [if_pos he]
  · rw [if_neg he]

/-- The merge loop applied to a store and a copy extending it returns
exactly the net-new suffix. -/
theorem mergeAdded_self_append (s : List Message) :
    ∀ o : List Message, mergeAdded o (o ++ s) = s := by
  intro o
  induction o with
  | nil => rfl
  | cons m rest ih =>
    show mergeAdded (m :: rest) (m :: (rest ++ s)) = s
    rw [mergeAdded, if_pos (List.mem_cons_self m (rest ++ s)),
      List.erase_cons_head]
    exact ih

/-- Claim C3.  When the context completes normally with merging enabled
and the private copy's store extends the entry snapshot (the post-prune
original store) by a suffix, `safe_modify` appends exactly that suffix to
the original store — no duplication, no loss — and changes no attribute
of the original agent other than its message list. -/
theorem safe_modify_merges_suffix (now : Int) (a : Agent)
    (body : Agent → Agent) (suffix : List Message)
    (hbody : (body (copyAgent (entrySnapshot now a))).messages =
      (entrySnapshot now a).messages ++ suffix) :
    (safe_modify now true body a).messages =
      (entrySnapshot now a).messages ++ suffix ∧
    (safe_modify now true body a).tools = a.tools ∧
    (safe_modify now true body a).model = a.model ∧
    (safe_modify now true body a).apiKey = a.apiKey ∧
    (safe_modify now true body a).baseUrl = a.baseUrl ∧
    (safe_modify now true body a).instructions = a.instructions ∧
    (safe_modify now true body a).messageExpireTime = a.messageExpireTime ∧
    (safe_modify now true body a).responseHandlers = a.responseHandlers ∧
    (safe_modify now true body a).streamChunkHandlers
      = a.streamChunkHandlers ∧
    (safe_modify now true body a).toolCallHandlers = a.toolCallHandlers := by
  have hsm : safe_modify now true body a =
      { entrySnapshot now a with
        messages := (entrySnapshot now a).messages ++
          mergeAdded (entrySnapshot now a).messages
            (body (copyAgent (entrySnapshot now a))).messages } := rfl
  rw [hsm, hbody, mergeAdded_self_append]
  refine ⟨rfl, ?_, ?_, ?_, ?_, ?_, ?_, ?_, ?_, ?_⟩
  · have h := congrArg Agent.tools (entrySnapshot_eta now a)
    exact h
  · have h := congrArg Agent.model (entrySnapshot_eta now a)
    exact h
  · have h := congrArg Agent.apiKey (entrySnapshot_eta now a)
    exact h
  · have h := congrArg Agent.baseUrl (entrySnapshot_eta now a)
    exact h
  · have h := congrArg Agent.instructions (entrySnapshot_eta now a)
    exact h
  · have h := congrArg Agent.messageExpireTime (entrySnapshot_eta now a)
    exact h
  · have h := congrArg Agent.responseHandlers (entrySnapshot_eta now a)
    exact h
  · have h := congrArg Agent.streamChunkHandlers (entrySnapshot_eta now a)
    exact h
  · have h := congrArg Agent.toolCallHandlers (entrySnapshot_eta now a)
    exact h

/-- Messages used in the concrete C3 scenario of the specification. -/
def u1Msg : Message :=
  { role := "user", content := some "U1", time := some 10
    name := none, tool_calls := none, tool_call_id := none }

/-- Assistant message `A1` of the C3 scenario. -/
def a1Msg : Message :=
  { role := "assistant", content := some "A1", time := some 11
    name := none, tool_calls := none, tool_call_id := none }

/-- User message `U2` of the C3 scenario. -/
def u2Msg : Message :=
  { role := "user", content := some "U2", time := some 12
    name := none, tool_calls := none, tool_call_id := none }

/-- Assistant message `A2` of the C3 scenario. -/
def a2Msg : Message :=
  { role := "assistant", content := some "A2", time := some 13
    name := none, tool_calls := none, tool_call_id := none }

/-- The original agent of the C3 scenario, with store `[S, U1]`. -/
def scenarioAgent : Agent :=
  { tools := [], model := "m", apiKey := "k", baseUrl := "u"
    instructions := "S", messageExpireTime := none
    responseHandlers := [], streamChunkHandlers := [], toolCallHandlers := []
    messages := [sysMsg, u1Msg] }

/-- Witness for C3, the specification's own scenario: the original store
`[S, U1]` whose private copy advanced to `[S, U1, A1, U2, A2]` merges
back to exactly `[S, U1, A1, U2, A2]`. -/
theorem safe_modify_merges_suffix_witness :
    (safe_modify 20 true
        (fun ag => { ag with messages := ag.messages ++ [a1Msg, u2Msg, a2Msg] })
        scenarioAgent).messages =
      [sysMsg, u1Msg, a1Msg, u2Msg, a2Msg] := by
  have h := safe_modify_merges_suffix 20 scenarioAgent
    (fun ag => { ag with messages := ag.messages ++ [a1Msg, u2Msg, a2Msg] })
    [a1Msg, u2Msg, a2Msg] rfl
  exact h.1

/-! ## Capability invocation: argument decoding in `call_tool`
(source lines 236-248)

```python
# 因为模型会输出 ture/false 而不是 True/False，所以需要转换
true: bool = True
false: bool = False
...
result = called_tool(**eval(tool_call["function"]["arguments"]))
```

The arguments text is decoded by the host language's expression evaluator
(`eval`) in a scope that binds the names `true` and `false`; there is no
`try`/`except` and no `MalformedArguments` error anywhere in the
repository.  The model-produced source text is represented here by its
parsed Python expression, restricted to the scalar fragment the decode
step exercises (literals, bare names, `+`); argument payloads are the
flat string-keyed dictionary literals the splat call `**` requires. -/

/-- A Python runtime scalar produced by evaluating an argument field. -/
inductive PyScalar where
  | int (n : Int)
  | str (s : String)
  | bool (b : Bool)
deriving DecidableEq, Repr

/-- A parsed Python scalar expression: integer / string literals, the
keyword literals `True`/`False`, a bare name (JSON's `true`/`false` parse
as names), and binary `+`. -/
inductive PyExpr where
  | intLit (n : Int)
  | strLit (s : String)
  | boolLit (b : Bool)
  | name (x : String)
  | add (a b : PyExpr)
deriving DecidableEq, Repr

/-- Python `eval` on the scalar-expression fragment, in an environment
resolving bare names. -/
def pyEvalScalar (env : String → Option PyScalar) : PyExpr → Option PyScalar
  | .intLit n => some (.int n)
  | .strLit s => some (.str s)
  | .boolLit b => some (.bool b)
  | .name x => env x
  | .add a b =>
      match pyEvalScalar env a, pyEvalScalar env b with
      | some (.int m), some (.int n) => some (.int (m + n))
      | some (.str s), some (.str t) => some (.str (s ++ t))
      | _, _ => none

/-- The local scope `call_tool` evaluates in: the names `true` and
`false` are bound to the corresponding booleans (source lines 240-241);
everything else is unbound. -/
def callToolEnv : String → Option PyScalar := fun x =>
  if x = "true" then some (.bool true)
  else if x = "false" then some (.bool false)
  else none

/-- The argument-decoding step of `call_tool` (source line 246):
`eval(arguments)` over a flat dictionary literal, in the scope binding
`true`/`false`, evaluating the field expressions left to right.  `none`
models the evaluation raising. -/
def call_tool_decode : List (String × PyExpr) →
    Option (List (String × PyScalar))
  | [] => some []
  | (k, e) :: rest =>
    match pyEvalScalar callToolEnv e, call_tool_decode rest with
    | some v, some vs => some ((k, v) :: vs)
    | _, _ => none

/-- Modelled from the spec: the "safe structured-data parser" (a JSON
reader) applied to the same parsed argument text.  It accepts only the
JSON scalar image inside Python syntax — integer literals, string
literals, and the JSON booleans, which parse as the bare names
`true`/`false` — and rejects everything else (Python keyword literals,
other names, arithmetic; JSON `null` and floats are outside the modelled
fragment). -/
def jsonDecodeScalar : PyExpr → Option PyScalar
  | .intLit n => some (.int n)
  | .strLit s => some (.str s)
  | .name x =>
      if x = "true" then some (.bool true)
      else if x = "false" then some (.bool false)
      else none
  | _ => none

/-- Modelled from the spec: the safe parser on a flat argument object. -/
def jsonDecodeArgs : List (String × PyExpr) →
    Option (List (String × PyScalar))
  | [] => some []
  | (k, e) :: rest =>
    match jsonDecodeScalar e, jsonDecodeArgs rest with
    | some v, some vs => some ((k, v) :: vs)
    | _, _ => none

/-- Claim C2, counterexample.  The argument text `{"x": 1+1}` is not
decodable structured data — the safe parser rejects it — yet `call_tool`'s
decode step evaluates it successfully (to `{"x": 2}`) and the invocation
proceeds; no `MalformedArguments` failure exists on this path. -/
theorem call_tool_decode_evaluates_nonjson_cex :
    call_tool_decode [("x", .add (.intLit 1) (.intLit 1))] =
        some [("x", .int 2)] ∧
      jsonDecodeArgs [("x", .add (.intLit 1) (.intLit 1))] = none := by
  constructor <;> rfl

/-- Claim C2, amended.  `call_tool` decodes arguments with the host
expression evaluator (`eval`) in a scope binding `true`/`false`; on every
argument object the safe structured-data parser accepts — JSON boolean
literals included — the eval-based decode succeeds with the same
structured value, but it also evaluates non-JSON expression text (see the
counterexample) and a failing decode raises the host error rather than a
`MalformedArguments` variant. -/
theorem call_tool_decode_refines_json (args : List (String × PyExpr))
    (v : List (String × PyScalar)) (h : jsonDecodeArgs args = some v) :
    call_tool_decode args = some v := by
  induction args generalizing v with
  | nil => simpa [jsonDecodeArgs, call_tool_decode] using h
  | cons kv rest ih =>
    obtain ⟨k, e⟩ := kv
    rw [jsonDecodeArgs] at h
    cases hs : jsonDecodeScalar e with
    | none => rw [hs] at h; simp at h
    | some s =>
      cases hr : jsonDecodeArgs rest with
      | none => rw [hs, hr] at h; simp at h
      | some vs =>
        rw [hs, hr] at h
        simp only [Option.some.injEq] at h
        have heval : pyEvalScalar callToolEnv e = some s := by
          cases e with
          | intLit n =>
            simp only [jsonDecodeScalar, Option.some.injEq] at hs
            simp [pyEvalScalar, hs]
          | strLit t =>
            simp only [jsonDecodeScalar, Option.some.injEq] at hs
            simp [pyEvalScalar, hs]
          | boolLit b => simp [jsonDecodeScalar] at hs
          | name x =>
            simp only [jsonDecodeScalar] at hs
            simp only [pyEvalScalar, callToolEnv]
            split at hs
            · next hx => subst hx; simpa using hs
            · next hx =>
              split at hs
              · next hx' =>
                subst hx'
                rw [if_neg hx]
                simpa using hs
              · exact absurd hs (by simp)
          | add a b => simp [jsonDecodeScalar] at hs
        rw [call_tool_decode, heval, ih vs hr, ← h]

/-- Witness for the amended C2: a JSON argument object carrying a boolean
literal, `{"flag": true, "n": 3}`, decodes through `call_tool`'s
eval-based step to the safe parser's value. -/
theorem call_tool_decode_refines_json_witness :
    jsonDecodeArgs [("flag", .name "true"), ("n", .intLit 3)] =
        some [("flag", .bool true), ("n", .int 3)] ∧
      call_tool_decode [("flag", .name "true"), ("n", .intLit 3)] =
        some [("flag", .bool true), ("n", .int 3)] := by
  refine ⟨by rfl, ?_⟩
  exact call_tool_decode_refines_json _ _ (by rfl)

/-! ## Streaming Aggregator: `get_response_stream` (source lines 157-234)

The loop consumes `ChatCompletionChunk` fragments (those before the first
`finish_reason == "stop"`, see `send_messages_stream` lines 152-155) and
maintains a text buffer plus `tool_calls_by_id`, a Python `dict[int,
ToolCallParam]` keyed by fragment index — hence iterated in *insertion*
order by `.values()`.  A fragment's tool-call piece creates the entry if
absent, then (unless its `function` is `None`, which `continue`s past the
`id` update too) overwrites `name`/`id` when truthy and concatenates a
truthy `arguments` delta. -/

/-- The `function` part of a streamed tool-call piece: optional name and
arguments fragments. -/
structure FunctionDelta where
  name : Option String
  arguments : Option String
deriving DecidableEq, Repr

/-- One tool-call piece of a fragment: `(index, optional id, optional
function part)`. -/
structure ToolCallDelta where
  index : Nat
  id : Option String
  function : Option FunctionDelta
deriving DecidableEq, Repr

/-- One streamed fragment (a pre-`stop` `ChatCompletionChunk`): optional
text delta, optional tool-call pieces, creation timestamp. -/
structure Chunk where
  content : Option String
  toolCalls : Option (List ToolCallDelta)
  created : Int
deriving DecidableEq, Repr

/-- An in-progress accumulator entry, created as
`{"id": "", "type": "function", "function": {"name": "", "arguments": ""}}`. -/
def emptyAcc : ToolCallParam :=
  { id := "", type := "function", function := { name := "", arguments := "" } }

/-- `k in dict` / `dict[k]` on the insertion-ordered accumulator. -/
def lookupAcc (k : Nat) : List (Nat × ToolCallParam) → Option ToolCallParam
  | [] => none
  | (k', v) :: rest => if k' = k then some v else lookupAcc k rest

/-- `dict[k] = f(dict[k])` on the accumulator: updates in place,
preserving entry position. -/
def updAcc (k : Nat) (f : ToolCallParam → ToolCallParam) :
    List (Nat × ToolCallParam) → List (Nat × ToolCallParam)
  | [] => []
  | (k', v) :: rest =>
      if k' = k then (k', f v) :: updAcc k f rest
      else (k', v) :: updAcc k f rest

/-- The update applied to the current entry by one tool-call piece whose
`function` part is present (source lines 194-208): overwrite a truthy
name, concatenate a truthy arguments delta, then overwrite a truthy id. -/
def applyDelta (d : ToolCallDelta) (f : FunctionDelta) (tc : ToolCallParam) :
    ToolCallParam :=
  let nm := match f.name with
    | some s => if s ≠ "" then s else tc.function.name
    | none => tc.function.name
  let ar := match f.arguments with
    | some s => if s ≠ "" then tc.function.arguments ++ s
                else tc.function.arguments
    | none => tc.function.arguments
  let idv := match d.id with
    | some s => if s ≠ "" then s else tc.id
    | none => tc.id
  { id := idv, type := tc.type, function := { name := nm, arguments := ar } }

/-- Processing of one tool-call piece (source lines 179-208): create the
entry if absent; if the piece's `function` is `None`, `continue` (skipping
the id update too); otherwise apply the updates. -/
def processDelta (acc : List (Nat × ToolCallParam)) (d : ToolCallDelta) :
    List (Nat × ToolCallParam) :=
  let acc1 := if (lookupAcc d.index acc).isSome then acc
              else acc ++ [(d.index, emptyAcc)]
  match d.function with
  | none => acc1
  | some f => updAcc d.index (applyDelta d f) acc1

/-- The aggregator state: collected text and the insertion-ordered
tool-call accumulator. -/
structure StreamState where
  content : String
  calls : List (Nat × ToolCallParam)
deriving DecidableEq, Repr

/-- Processing of one fragment (source lines 165-208): append a truthy
text delta to the buffer (appending the empty string is equivalent to the
truthiness skip) and run each tool-call piece through `processDelta`. -/
def processChunk (st : StreamState) (c : Chunk) : StreamState :=
  { content := st.content ++ (c.content.getD "")
    calls := match c.toolCalls with
      | none => st.calls
      | some ds => ds.foldl processDelta st.calls }

/-- The accumulator after consuming a fragment sequence. -/
def accCalls (chunks : List Chunk) : List (Nat × ToolCallParam) :=
  (chunks.foldl processChunk { content := "", calls := [] }).calls

/-- The collected text after consuming a fragment sequence. -/
def accContent (chunks : List Chunk) : String :=
  (chunks.foldl processChunk { content := "", calls := [] }).content

/-- Finalization of `get_response_stream` (source lines 210-234): the
tool-call list is the accumulator's values in insertion order, the
canonical assistant message takes `collected_chunks[-1].created` as its
timestamp — an IndexError (`none`) when no fragment arrived — and carries
a `tool_calls` key iff the list is non-empty (truthiness test line 226). -/
def aggregate (chunks : List Chunk) : Option (Message × List ToolCallParam) :=
  match chunks.getLast? with
  | none => none
  | some last =>
      let tcs := (accCalls chunks).map Prod.snd
      some
        ({ role := "assistant", content := some (accContent chunks)
           time := some last.created, name := none
           tool_calls := if tcs.isEmpty then none else some tcs
           tool_call_id := none }, tcs)

/-- The tool-result messages appended by `call_tool` (source lines
236-257) on its successful path: one `{"role": "tool", "content":
str(result), "tool_call_id": call.id}` per call, with the `"time"` key
inherited from the issuing assistant message only when truthy.  Execution
of the capability (`eval`, splat call, `str`) is abstracted by the
registered `fn`; an unknown tool name is a `KeyError` (`none`). -/
def call_tool_msgs (tools : List (String × SimpleTool)) (t : Option Int)
    (calls : List ToolCallParam) : Option (List Message) :=
  if tools.isEmpty then some [] else
  calls.foldr
    (fun c acc =>
      match lookupTool tools c.function.name, acc with
      | some tool, some rest =>
          some ({ role := "tool"
                  content := some (tool.fn c.function.arguments)
                  time := match t with
                    | some tv => if tv ≠ 0 then some tv else none
                    | none => none
                  name := none, tool_calls := none
                  tool_call_id := some c.id } :: rest)
      | _, _ => none)
    (some [])

/-- The recursive dispatch loop of `get_response_stream` (lines 226-234),
driven by the transport's successive fragment streams: append the
canonical message; if it carries tool calls, append the tool results and
recurse on the next stream, otherwise return the message's content.
`none` models an uncaught error (IndexError, KeyError) or running out of
modelled transport input. -/
def stream_dispatch (tools : List (String × SimpleTool)) :
    List (List Chunk) → List Message → Option (List Message × String)
  | [], _ => none
  | round :: rest, msgs =>
      match aggregate round with
      | none => none
      | some (m, tcs) =>
          if tcs.isEmpty then some (msgs ++ [m], accContent round)
          else
            match call_tool_msgs tools m.time tcs with
            | none => none
            | some results => stream_dispatch tools rest (msgs ++ [m] ++ results)

/-! ### C4: arguments are the concatenation of the deltas at an index -/

/-- The tool-call pieces of a fragment (empty when the `tool_calls` field
is absent). -/
def deltasOf (c : Chunk) : List ToolCallDelta :=
  c.toolCalls.getD []

/-- The arguments text a single piece contributes: its `arguments`
fragment when the `function` part is present, otherwise nothing (a
`None` function `continue`s; an absent or empty fragment contributes the
empty string, which concatenation ignores). -/
def argContrib (d : ToolCallDelta) : String :=
  match d.function with
  | none => ""
  | some f => f.arguments.getD ""

/-- The concatenation, in arrival order, of the arguments fragments
carried at index `i` by a piece sequence. -/
def concatAt (i : Nat) : List ToolCallDelta → String
  | [] => ""
  | d :: rest => (if d.index = i then argContrib d else "") ++ concatAt i rest

/-- The arguments text currently accumulated at index `i` (empty when the
entry does not exist yet). -/
def argsAt (acc : List (Nat × ToolCallParam)) (i : Nat) : String :=
  match lookupAcc i acc with
  | none => ""
  | some tc => tc.function.arguments

theorem lookupAcc_append_single (i k : Nat) (v : ToolCallParam) :
    ∀ acc, lookupAcc i (acc ++ [(k, v)]) =
      match lookupAcc i acc with
      | some x => some x
      | none => if k = i then some v else none := by
  intro acc
  induction acc with
  | nil => rfl
  | cons p rest ih =>
    obtain ⟨k', v'⟩ := p
    by_cases hk : k' = i
    · simp [lookupAcc, hk]
    · simp only [List.cons_append, lookupAcc, if_neg hk]
      exact ih

theorem lookupAcc_updAcc (i k : Nat) (f : ToolCallParam → ToolCallParam) :
    ∀ acc, lookupAcc i (updAcc k f acc) =
      if k = i then (lookupAcc i acc).map f else lookupAcc i acc := by
  intro acc
  induction acc with
  | nil => cases h : decide (k = i) <;> simp_all [lookupAcc, updAcc]
  | cons p rest ih =>
    obtain ⟨k', v'⟩ := p
    by_cases hki : k = i
    · subst hki
      by_cases hk : k' = k
      · simp [updAcc, lookupAcc, hk]
      · simp only [updAcc, lookupAcc, if_neg hk, if_pos rfl] at *
        exact ih
    · by_cases hk : k' = k
      · subst hk
        have hne : ¬ k' = i := fun h => hki h
        simp only [updAcc, if_pos rfl, lookupAcc, if_neg hne,
          if_neg hki] at *
        simpa [hki] using ih
      · simp only [updAcc, if_neg hk, lookupAcc] at *
        by_cases h2 : k' = i
        · simp [h2, hki]
        · simpa [h2, hki] using ih

theorem applyDelta_arguments (d : ToolCallDelta) (f : FunctionDelta)
    (tc : ToolCallParam) :
    (applyDelta d f tc).function.arguments =
      tc.function.arguments ++ f.arguments.getD "" := by
  unfold applyDelta
  cases h : f.arguments with
  | none => simp [String.append_empty]
  | some s =>
    by_cases hs : s = ""
    · subst hs; simp [String.append_empty]
    · simp [hs]

/-- Effect of one tool-call piece on the accumulated arguments at any
index. -/
theorem argsAt_processDelta (acc : List (Nat × ToolCallParam))
    (d : ToolCallDelta) (i : Nat) :
    argsAt (processDelta acc d) i =
      argsAt acc i ++ (if d.index = i then argContrib d else "") := by
  unfold processDelta
  cases hf : d.function with
  | none =>
    have hc : argContrib d = "" := by simp [argContrib, hf]
    have hif : (if d.index = i then argContrib d else "") = "" := by
      rw [hc]; split <;> rfl
    rw [hif, String.append_empty]
    by_cases hpresent : (lookupAcc d.index acc).isSome
    · simp [hpresent]
    · simp only [hpresent, Bool.false_eq_true, if_false]
      unfold argsAt
      rw [lookupAcc_append_single]
      cases hl : lookupAcc i acc with
      | some x => rfl
      | none =>
        by_cases hki : d.index = i
        · subst hki
          rw [hl] at hpresent
          simp at hpresent
          simp [hpresent, emptyAcc]
        · simp [hki]
  | some f =>
    have hc : argContrib d = f.arguments.getD "" := by simp [argContrib, hf]
    unfold argsAt
    rw [lookupAcc_updAcc]
    by_cases hki : d.index = i
    · subst hki
      rw [if_pos rfl, if_pos rfl, hc]
      by_cases hpresent : (lookupAcc d.index acc).isSome
      · simp only [hpresent, if_true]
        cases hl : lookupAcc d.index acc with
        | none => rw [hl] at hpresent; simp at hpresent
        | some tc => simp [applyDelta_arguments]
      · simp only [hpresent, Bool.false_eq_true, if_false]
        rw [lookupAcc_append_single]
        cases hl : lookupAcc d.index acc with
        | some x => rw [hl] at hpresent; simp at hpresent
        | none =>
          simp [applyDelta_arguments, emptyAcc, String.empty_append]
    · rw [if_neg hki, if_neg hki, String.append_empty]
      by_cases hpresent : (lookupAcc d.index acc).isSome
      · simp [hpresent]
      · simp only [hpresent, Bool.false_eq_true, if_false]
        rw [lookupAcc_append_single]
        cases hl : lookupAcc i acc with
        | some x => rfl
        | none => simp [hki]

/-- Effect of a whole piece list on the accumulated arguments. -/
theorem argsAt_foldl_processDelta (i : Nat) :
    ∀ (ds : List ToolCallDelta) (acc : List (Nat × ToolCallParam)),
      argsAt (ds.foldl processDelta acc) i = argsAt acc i ++ concatAt i ds := by
  intro ds
  induction ds with
  | nil => intro acc; simp [concatAt, String.append_empty]
  | cons d rest ih =>
    intro acc
    simp only [List.foldl_cons, concatAt]
    rw [ih, argsAt_processDelta, String.append_assoc]

/-- Effect of a whole fragment sequence on the accumulated arguments. -/
theorem argsAt_foldl_processChunk (i : Nat) :
    ∀ (chunks : List Chunk) (st : StreamState),
      argsAt (chunks.foldl processChunk st).calls i =
        argsAt st.calls i ++ concatAt i (chunks.flatMap deltasOf) := by
  intro chunks
  induction chunks with
  | nil => intro st; simp [concatAt, String.append_empty]
  | cons c rest ih =>
    intro st
    have hchunk : argsAt (processChunk st c).calls i =
        argsAt st.calls i ++ concatAt i (deltasOf c) := by
      unfold processChunk deltasOf
      cases hc : c.toolCalls with
      | none => simp [concatAt, String.append_empty]
      | some ds => simpa using argsAt_foldl_processDelta i ds st.calls
    have happ : ∀ l1 l2 : List ToolCallDelta,
        concatAt i (l1 ++ l2) = concatAt i l1 ++ concatAt i l2 := by
      intro l1 l2
      induction l1 with
      | nil => simp [concatAt, String.empty_append]
      | cons d r ihl => simp [concatAt, ihl, String.append_assoc]
    simp only [List.foldl_cons, List.flatMap_cons]
    rw [ih, hchunk, happ, String.append_assoc]

/-- Claim C4.  For every fragment sequence, whenever the accumulator holds
a finalized tool call at index `i`, its arguments text equals the
concatenation, in fragment-arrival order, of all the arguments fragments
carried at index `i` — so the result is invariant under how the arguments
text was split across fragments. -/
theorem stream_arguments_concat (chunks : List Chunk) (i : Nat)
    (tc : ToolCallParam) (h : lookupAcc i (accCalls chunks) = some tc) :
    tc.function.arguments = concatAt i (chunks.flatMap deltasOf) := by
  have := argsAt_foldl_processChunk i chunks { content := "", calls := [] }
  unfold accCalls at h
  unfold argsAt at this
  rw [h] at this
  simpa [String.empty_append] using this

/-- Fragments of the specification's concrete re-chunking scenario:
index 0, name `foo`, arguments split as `(x:1` then `)`. -/
def fooChunkA : Chunk :=
  { content := none
    toolCalls := some [{ index := 0, id := some "c1"
                         function := some { name := some "foo"
                                            arguments := some "(x:1" } }]
    created := 7 }

/-- Second fragment of the scenario: the rest of the arguments text. -/
def fooChunkB : Chunk :=
  { content := none
    toolCalls := some [{ index := 0, id := none
                         function := some { name := none
                                            arguments := some ")" } }]
    created := 8 }

/-- Witness for C4: the two-fragment split reassembles to the full
arguments text `(x:1)`. -/
theorem stream_arguments_concat_witness :
    (lookupAcc 0 (accCalls [fooChunkA, fooChunkB])).map
        (fun tc => tc.function.arguments) = some "(x:1)" ∧
      concatAt 0 ([fooChunkA, fooChunkB].flatMap deltasOf) = "(x:1)" := by
  have h : lookupAcc 0 (accCalls [fooChunkA, fooChunkB]) =
      some { id := "c1", type := "function"
             function := { name := "foo", arguments := "(x:1)" } } := by
    decide
  refine ⟨by rw [h]; rfl, ?_⟩
  have := stream_arguments_concat [fooChunkA, fooChunkB] 0 _ h
  simpa using this.symm

/-! ### C6: order of the finalized tool-call list -/

/-- The sequence of fragment indices carried by a fragment sequence, in
arrival order. -/
def deltaIndices (chunks : List Chunk) : List Nat :=
  (chunks.flatMap deltasOf).map ToolCallDelta.index

/-- The first-occurrence subsequence of a list: each value in the order it
first appears, given an initial set of already-seen values. -/
def firstOcc (seen : List Nat) : List Nat → List Nat
  | [] => []
  | x :: xs => if x ∈ seen then firstOcc seen xs
               else x :: firstOcc (x :: seen) xs

theorem firstOcc_congr (l : List Nat) :
    ∀ s1 s2 : List Nat, (∀ y, y ∈ s1 ↔ y ∈ s2) →
      firstOcc s1 l = firstOcc s2 l := by
  induction l with
  | nil => intro _ _ _; rfl
  | cons x xs ih =>
    intro s1 s2 hmem
    unfold firstOcc
    by_cases hx : x ∈ s1
    · rw [if_pos hx, if_pos ((hmem x).mp hx)]
      exact ih s1 s2 hmem
    · rw [if_neg hx, if_neg (fun h => hx ((hmem x).mpr h))]
      refine congrArg (x :: ·) (ih _ _ fun y => ?_)
      simp only [List.mem_cons]
      exact or_congr Iff.rfl (hmem y)

theorem keys_updAcc (k : Nat) (f : ToolCallParam → ToolCallParam) :
    ∀ acc : List (Nat × ToolCallParam),
      (updAcc k f acc).map Prod.fst = acc.map Prod.fst := by
  intro acc
  induction acc with
  | nil => rfl
  | cons p rest ih =>
    obtain ⟨k', v⟩ := p
    by_cases hk : k' = k <;> simp [updAcc, hk, ih]

theorem mem_keys_iff_lookupAcc (i : Nat) :
    ∀ acc : List (Nat × ToolCallParam),
      i ∈ acc.map Prod.fst ↔ (lookupAcc i acc).isSome := by
  intro acc
  induction acc with
  | nil => simp [lookupAcc]
  | cons p rest ih =>
    obtain ⟨k, v⟩ := p
    by_cases hk : k = i
    · simp [lookupAcc, hk]
    · simp only [List.map_cons, List.mem_cons, lookupAcc, if_neg hk]
      rw [← ih]
      constructor
      · rintro (h | h)
        · exact absurd h.symm hk
        · exact h
      · exact Or.inr

/-- One tool-call piece appends its index to the key sequence exactly when
the index is new. -/
theorem keys_processDelta (acc : List (Nat × ToolCallParam))
    (d : ToolCallDelta) :
    (processDelta acc d).map Prod.fst =
      if d.index ∈ acc.map Prod.fst then acc.map Prod.fst
      else acc.map Prod.fst ++ [d.index] := by
  unfold processDelta
  by_cases hpresent : (lookupAcc d.index acc).isSome
  · have hmem : d.index ∈ acc.map Prod.fst :=
      (mem_keys_iff_lookupAcc d.index acc).mpr hpresent
    cases hf : d.function with
    | none => simp [hpresent, hmem]
    | some f => simp [hpresent, hmem, keys_updAcc]
  · have hmem : ¬ d.index ∈ acc.map Prod.fst := by
      rw [mem_keys_iff_lookupAcc]
      exact fun h => hpresent h
    cases hf : d.function with
    | none => simp [hpresent, hmem]
    | some f => simp [hpresent, hmem, keys_updAcc]

/-- A piece list appends exactly the first occurrences of its new
indices, in arrival order. -/
theorem keys_foldl_processDelta :
    ∀ (ds : List ToolCallDelta) (acc : List (Nat × ToolCallParam)),
      (ds.foldl processDelta acc).map Prod.fst =
        acc.map Prod.fst ++
          firstOcc (acc.map Prod.fst) (ds.map ToolCallDelta.index) := by
  intro ds
  induction ds with
  | nil => intro acc; simp [firstOcc]
  | cons d rest ih =>
    intro acc
    simp only [List.foldl_cons, List.map_cons, firstOcc]
    by_cases hmem : d.index ∈ acc.map Prod.fst
    · rw [if_pos hmem, ih, keys_processDelta, if_pos hmem]
    · rw [if_neg hmem, ih, keys_processDelta, if_neg hmem,
        List.append_assoc, List.singleton_append]
      refine congrArg _ (congrArg _ (firstOcc_congr _ _ _ fun y => ?_))
      simp only [List.mem_append, List.mem_cons]
      constructor
      · rintro (h | h | h)
        · exact Or.inr h
        · exact Or.inl h
        · exact absurd h (List.not_mem_nil y)
      · rintro (h | h)
        · exact Or.inr (Or.inl h)
        · exact Or.inl h

theorem firstOcc_append (l2 : List Nat) :
    ∀ (l1 seen : List Nat), firstOcc seen (l1 ++ l2) =
      firstOcc seen l1 ++ firstOcc (seen ++ l1) l2 := by
  intro l1
  induction l1 with
  | nil =>
    intro seen
    simp only [List.nil_append, List.append_nil, firstOcc]
  | cons x xs ih =>
    intro seen
    simp only [List.cons_append, List.append_eq, firstOcc]
    by_cases hx : x ∈ seen
    · rw [if_pos hx, if_pos hx, ih]
      refine congrArg _ (firstOcc_congr _ _ _ fun y => ?_)
      simp only [List.mem_append, List.mem_cons]
      constructor
      · rintro (h | h)
        · exact Or.inl h
        · exact Or.inr (Or.inr h)
      · rintro (h | h | h)
        · exact Or.inl h
        · exact Or.inl (h ▸ hx)
        · exact Or.inr h
    · rw [if_neg hx, if_neg hx, ih, List.cons_append]
      refine congrArg (x :: ·) (congrArg _ (firstOcc_congr _ _ _ fun y => ?_))
      simp only [List.mem_append, List.mem_cons]
      constructor
      · rintro (h | h | h)
        · exact Or.inr (Or.inl h)
        · exact Or.inl h
        · exact Or.inr (Or.inr h)
      · rintro (h | h | h)
        · exact Or.inr (Or.inl h)
        · exact Or.inl h
        · exact Or.inr (Or.inr h)

theorem mem_firstOcc (y : Nat) :
    ∀ (l seen : List Nat), y ∈ firstOcc seen l ↔ (y ∈ l ∧ y ∉ seen) := by
  intro l
  induction l with
  | nil => intro seen; simp [firstOcc]
  | cons x xs ih =>
    intro seen
    unfold firstOcc
    by_cases hx : x ∈ seen
    · rw [if_pos hx, ih]
      simp only [List.mem_cons]
      constructor
      · rintro ⟨h1, h2⟩; exact ⟨Or.inr h1, h2⟩
      · rintro ⟨h1, h2⟩
        rcases h1 with h | h
        · exact absurd (h ▸ hx) h2
        · exact ⟨h, h2⟩
    · rw [if_neg hx]
      simp only [List.mem_cons, ih]
      constructor
      · rintro (h | ⟨h1, h2⟩)
        · exact ⟨Or.inl h, h ▸ hx⟩
        · exact ⟨Or.inr h1, fun hy => h2 (Or.inr hy)⟩
      · rintro ⟨h1, h2⟩
        rcases h1 with h | h
        · exact Or.inl h
        · by_cases hyx : y = x
          · exact Or.inl hyx
          · exact Or.inr ⟨h, fun hc => hc.elim hyx h2⟩

/-- Claim C6, amended, key step: the accumulator's key sequence is the
first-occurrence subsequence of the arriving fragment indices. -/
theorem keys_foldl_processChunk :
    ∀ (chunks : List Chunk) (st : StreamState),
      (chunks.foldl processChunk st).calls.map Prod.fst =
        st.calls.map Prod.fst ++
          firstOcc (st.calls.map Prod.fst) (deltaIndices chunks) := by
  intro chunks
  induction chunks with
  | nil => intro st; simp [deltaIndices, firstOcc]
  | cons c rest ih =>
    intro st
    have hchunk : (processChunk st c).calls.map Prod.fst =
        st.calls.map Prod.fst ++
          firstOcc (st.calls.map Prod.fst)
            ((deltasOf c).map ToolCallDelta.index) := by
      unfold processChunk deltasOf
      cases hc : c.toolCalls with
      | none => simp [firstOcc]
      | some ds => simpa using keys_foldl_processDelta ds st.calls
    simp only [List.foldl_cons, deltaIndices, List.flatMap_cons,
      List.map_append]
    rw [ih, hchunk, List.append_assoc, firstOcc_append]
    refine congrArg _ (congrArg _ (firstOcc_congr _ _ _ fun y => ?_))
    simp only [List.mem_append, mem_firstOcc]
    constructor
    · rintro (h | h)
      · exact Or.inl h
      · exact Or.inr h.1
    · rintro (h | h)
      · exact Or.inl h
      · by_cases hk : y ∈ st.calls.map Prod.fst
        · exact Or.inl hk
        · exact Or.inr ⟨h, hk⟩

/-- Claim C6, amended.  The canonical assistant message's tool-call list
holds the accumulator's values in *insertion* order: each fragment index
appears at the position of its first arrival, so the list is ascending in
index only when lower indices happen to arrive first. -/
theorem stream_calls_insertion_order (chunks : List Chunk) :
    (accCalls chunks).map Prod.fst = firstOcc [] (deltaIndices chunks) := by
  unfold accCalls
  rw [keys_foldl_processChunk]
  rfl

/-- Modelled from the spec: "its tool-call list is the mapping's values in
ascending index order" — stable insertion sort of the accumulator by
fragment index. -/
def insertByIdx (p : Nat × ToolCallParam) :
    List (Nat × ToolCallParam) → List (Nat × ToolCallParam)
  | [] => [p]
  | q :: rest => if p.1 ≤ q.1 then p :: q :: rest else q :: insertByIdx p rest

/-- Modelled from the spec: the accumulator sorted ascending by index. -/
def sortByIdx (acc : List (Nat × ToolCallParam)) :
    List (Nat × ToolCallParam) :=
  acc.foldr insertByIdx []

/-- Fragment arriving first, carrying the piece at index 1. -/
def outOfOrderChunk1 : Chunk :=
  { content := none
    toolCalls := some [{ index := 1, id := some "b"
                         function := some { name := some "g"
                                            arguments := some "" } }]
    created := 3 }

/-- Fragment arriving second, carrying the piece at index 0. -/
def outOfOrderChunk2 : Chunk :=
  { content := none
    toolCalls := some [{ index := 0, id := some "a"
                         function := some { name := some "f"
                                            arguments := some "" } }]
    created := 4 }

/-- Claim C6, counterexample.  When the piece at index 1 arrives before
the piece at index 0, the finalized list follows dict *insertion* order
`[1, 0]`, not the claimed ascending index order `[0, 1]`: the produced
value list differs from the sorted value list. -/
theorem stream_calls_not_sorted_cex :
    (accCalls [outOfOrderChunk1, outOfOrderChunk2]).map Prod.fst = [1, 0] ∧
    (sortByIdx (accCalls [outOfOrderChunk1, outOfOrderChunk2])).map
        Prod.fst = [0, 1] ∧
    (accCalls [outOfOrderChunk1, outOfOrderChunk2]).map Prod.snd ≠
      (sortByIdx (accCalls [outOfOrderChunk1, outOfOrderChunk2])).map
        Prod.snd := by
  refine ⟨by decide, by decide, by decide⟩

/-! ### C9: a stream with no text and no tool-call fragments -/

/-- A fragment-wise no-op stream leaves the aggregator state unchanged. -/
theorem foldl_processChunk_inert :
    ∀ (chunks : List Chunk) (st : StreamState),
      (∀ c ∈ chunks,
        (c.content = none ∨ c.content = some "") ∧
        (c.toolCalls = none ∨ c.toolCalls = some [])) →
      chunks.foldl processChunk st = st := by
  intro chunks
  induction chunks with
  | nil => intro st _; rfl
  | cons c rest ih =>
    intro st h
    have hc := h c (List.mem_cons_self c rest)
    have hstep : processChunk st c = st := by
      unfold processChunk
      have h1 : st.content ++ c.content.getD "" = st.content := by
        rcases hc.1 with h | h <;> rw [h] <;>
          simp [String.append_empty]
      have h2 : (match c.toolCalls with
          | none => st.calls
          | some ds => ds.foldl processDelta st.calls) = st.calls := by
        rcases hc.2 with h | h
        · rw [h]
        · rw [h]; rfl
      rw [h1, h2]
    simp only [List.foldl_cons, hstep]
    exact ih st fun x hx => h x (List.mem_cons_of_mem c hx)

/-- Claim C9, counterexample.  A stream that delivers *no* fragment at all
does not yield a canonical empty message: finalization reads
`collected_chunks[-1].created` from an empty list (an IndexError,
modelled as `none`), so the aggregator fails and the dispatch loop
propagates the error instead of returning empty content. -/
theorem aggregate_empty_stream_cex :
    aggregate ([] : List Chunk) = none ∧
    stream_dispatch [] [([] : List Chunk)] [sysMsg] = none := by
  exact ⟨rfl, rfl⟩

/-- Claim C9, amended.  For a streamed response that delivers at least
one fragment but neither truthy text deltas nor tool-call pieces, the
aggregator succeeds and produces a canonical assistant message with empty
content, no `tool_calls` key, and the last fragment's timestamp; the
dispatch loop appends it and terminates returning that empty content,
regardless of any further transport rounds. -/
theorem stream_dispatch_empty_round (tools : List (String × SimpleTool))
    (round : List Chunk) (rest : List (List Chunk)) (msgs : List Message)
    (lc : Chunk) (hlast : round.getLast? = some lc)
    (hinert : ∀ c ∈ round,
      (c.content = none ∨ c.content = some "") ∧
      (c.toolCalls = none ∨ c.toolCalls = some [])) :
    stream_dispatch tools (round :: rest) msgs =
      some (msgs ++
        [{ role := "assistant", content := some "", time := some lc.created
           name := none, tool_calls := none, tool_call_id := none }], "") := by
  have hfold := foldl_processChunk_inert round
    { content := "", calls := [] } hinert
  have hcalls : accCalls round = [] := by unfold accCalls; rw [hfold]
  have hcontent : accContent round = "" := by unfold accContent; rw [hfold]
  have hagg : aggregate round =
      some ({ role := "assistant", content := some ""
              time := some lc.created, name := none
              tool_calls := none, tool_call_id := none }, []) := by
    unfold aggregate
    rw [hlast, hcalls, hcontent]
    rfl
  unfold stream_dispatch
  rw [hagg]
  simp only [List.isEmpty_nil, if_true, hcontent]

/-- Witness for the amended C9: one fragment with no text and no
tool-call pieces terminates the loop with empty content. -/
theorem stream_dispatch_empty_round_witness :
    stream_dispatch []
        [[{ content := none, toolCalls := none, created := 42 }]] [sysMsg] =
      some ([sysMsg,
        { role := "assistant", content := some "", time := some 42
          name := none, tool_calls := none, tool_call_id := none }], "") := by
  have h := stream_dispatch_empty_round []
    [{ content := none, toolCalls := none, created := 42 }] [] [sysMsg]
    { content := none, toolCalls := none, created := 42 } rfl
    (by intro c hc; simp at hc; subst hc; exact ⟨Or.inl rfl, Or.inl rfl⟩)
  simpa using h

/-! ## C7: ordering of tool-result appends and tool-call observers
(source lines 236-261)

```python
for tool_call in tool_calls:
    called_tool = self._tools[...]
    result = called_tool(**eval(...))
    ...
    self.messages.append(message)
    for tool_call_handler in self.tool_call_handlers:
        awaitable = tool_call_handler(tool_call)
        ...
```

The observable event order of one `call_tool` run on its successful path,
with calls and handlers identified by position. -/

/-- An observable event of `call_tool`: executing the capability of the
call at position `i`, appending its tool-result message, or invoking
registered observer `h` on the call at position `i`. -/
inductive ToolEvent where
  | exec (i : Nat)
  | append (i : Nat)
  | invoke (h : Nat) (i : Nat)
deriving DecidableEq, Repr

/-- The events of one iteration of the `for tool_call in tool_calls` loop
(source lines 244-261): execute the capability, append the tool-result
message, then invoke each registered tool-call observer in registration
order. -/
def callBlock (nHandlers j : Nat) : List ToolEvent :=
  ToolEvent.exec j :: ToolEvent.append j ::
    (List.range nHandlers).map (ToolEvent.invoke · j)

/-- The event trace of `call_tool` (source lines 236-261) over `nCalls`
tool calls with `nHandlers` registered tool-call observers: nothing when
the registry is falsy (line 242), else the per-call blocks in call
order. -/
def call_tool_trace (toolsEmpty : Bool) (nHandlers nCalls : Nat) :
    List ToolEvent :=
  if toolsEmpty then []
  else (List.range nCalls).flatMap (callBlock nHandlers)

/-- Claim C7, counterexample.  With two tool calls and one observer the
trace is `[exec 0, append 0, invoke 0 0, exec 1, append 1, invoke 0 1]`:
the observer runs on call 0 (position 2) before the last tool result of
the step is appended (position 4), contradicting "no registered tool-call
observer runs before the last tool result of the step is appended". -/
theorem call_tool_trace_interleaves_cex :
    call_tool_trace false 1 2 =
      [ToolEvent.exec 0, ToolEvent.append 0, ToolEvent.invoke 0 0,
       ToolEvent.exec 1, ToolEvent.append 1, ToolEvent.invoke 0 1] ∧
    ((call_tool_trace false 1 2).take 3).contains (ToolEvent.invoke 0 0) ∧
    ¬ ((call_tool_trace false 1 2).take 3).contains (ToolEvent.append 1) := by
  refine ⟨by decide, by decide, by decide⟩

/-- Each observer invocation happens only on a call whose own result has
already been appended: scanning the trace left to right while collecting
the appended call positions, every `invoke _ i` finds `i` already
collected. -/
def invokesAfterOwnAppend (appended : List Nat) : List ToolEvent → Prop
  | [] => True
  | ToolEvent.exec _ :: rest => invokesAfterOwnAppend appended rest
  | ToolEvent.append i :: rest => invokesAfterOwnAppend (i :: appended) rest
  | ToolEvent.invoke _ i :: rest =>
      i ∈ appended ∧ invokesAfterOwnAppend appended rest

theorem invokesAfterOwnAppend_map_invoke (j : Nat) (ap : List Nat)
    (hj : j ∈ ap) :
    ∀ (hl : List Nat) (tail : List ToolEvent),
      invokesAfterOwnAppend ap tail →
      invokesAfterOwnAppend ap
        (hl.map (ToolEvent.invoke · j) ++ tail) := by
  intro hl
  induction hl with
  | nil => intro tail ht; simpa using ht
  | cons h hl' ih =>
    intro tail ht
    exact ⟨hj, ih tail ht⟩

theorem invokesAfterOwnAppend_flatMap (nHandlers : Nat) :
    ∀ (idxs ap : List Nat),
      invokesAfterOwnAppend ap (idxs.flatMap (callBlock nHandlers)) := by
  intro idxs
  induction idxs with
  | nil => intro ap; trivial
  | cons j rest ih =>
    intro ap
    simp only [List.flatMap_cons, callBlock, List.cons_append]
    show invokesAfterOwnAppend (j :: ap)
      ((List.range nHandlers).map (ToolEvent.invoke · j) ++
        rest.flatMap (callBlock nHandlers))
    exact invokesAfterOwnAppend_map_invoke j (j :: ap)
      (List.mem_cons_self j ap) _ _ (ih (j :: ap))

/-- Claim C7, amended.  Observers are invoked per call, not per step:
every tool-call observer invocation for a call occurs strictly after the
append of that same call's tool result (though possibly before the
appends of later calls in the step, per the counterexample). -/
theorem call_tool_invoke_after_own_append (toolsEmpty : Bool)
    (nHandlers nCalls : Nat) :
    invokesAfterOwnAppend []
      (call_tool_trace toolsEmpty nHandlers nCalls) := by
  unfold call_tool_trace
  cases toolsEmpty with
  | true => rw [if_pos rfl]; trivial
  | false =>
    rw [if_neg (by simp)]
    exact invokesAfterOwnAppend_flatMap nHandlers (List.range nCalls) []

/-! ## C8: capability discovery — `connect_to_mcp_server` and
`load_mcp_config` (source lines 380-410)

```python
async def connect_to_mcp_server(self, params):
    mcp_client = MCPClient()
    self._mcp_clients.append(mcp_client)
    await mcp_client.connect_to_server(params)
    for tool in mcp_client.available_tools:
        await tool.init()
        ... register ...

async def load_mcp_config(self, config_file):
    ...
    for params in config.get("mcpServers").values():
        ...
        await self.connect_to_mcp_server(params)
```

Neither function contains any exception handling: a raise from the
connect step or from a tool's per-tool initialization propagates out of
`load_mcp_config`, aborting the iteration over the remaining configured
handles.  A discovery handle is modelled by the outcome of its connect
step and the per-tool initialization outcomes of the capabilities it
advertises; the file-reading preamble is outside the model. -/

/-- One advertised capability of a discovery handle: registry name, the
capability, and whether its `init()` step succeeds. -/
structure MCPToolSpec where
  name : String
  tool : SimpleTool
  initOk : Bool

/-- One configured discovery handle: whether `connect_to_server`
succeeds, and the advertised capabilities. -/
structure MCPServer where
  connectOk : Bool
  tools : List MCPToolSpec

/-- In-place overwrite of every binding of key `n` (a Python dict update
touches exactly the existing slot; keys are unique in any dict-built
list). -/
def overwriteKey (n : String) (t : SimpleTool) :
    List (String × SimpleTool) → List (String × SimpleTool)
  | [] => []
  | (k, v) :: rest =>
      if k = n then (n, t) :: overwriteKey n t rest
      else (k, v) :: overwriteKey n t rest

/-- Python dict assignment `self._tools[name] = tool`: overwrite in place
when the key exists, else append. -/
def dictInsert (reg : List (String × SimpleTool)) (n : String)
    (t : SimpleTool) : List (String × SimpleTool) :=
  if (lookupTool reg n).isSome then overwriteKey n t reg
  else reg ++ [(n, t)]

/-- The registration loop over one handle's advertised capabilities
(source lines 385-390): initialize then register each in turn; a failing
`init()` raises, keeping the registrations made so far. -/
def registerTools (reg : List (String × SimpleTool)) :
    List MCPToolSpec → Except (List (String × SimpleTool))
      (List (String × SimpleTool))
  | [] => Except.ok reg
  | t :: rest =>
      if t.initOk then registerTools (dictInsert reg t.name t.tool) rest
      else Except.error reg

/-- `connect_to_mcp_server(params)` (source lines 380-390): a failed
connect raises before any registration; otherwise the per-tool loop
runs.  The error value carries the registry as left behind. -/
def connect_to_mcp_server (reg : List (String × SimpleTool))
    (s : MCPServer) :
    Except (List (String × SimpleTool)) (List (String × SimpleTool)) :=
  if s.connectOk then registerTools reg s.tools else Except.error reg

/-- `load_mcp_config` over the configured handles (source lines 405-409):
connect to each in order; the first raise propagates (`true` in the
result flags the uncaught error) and the remaining handles are never
processed. -/
def load_mcp_config (reg : List (String × SimpleTool)) :
    List MCPServer → (List (String × SimpleTool)) × Bool
  | [] => (reg, false)
  | s :: rest =>
      match connect_to_mcp_server reg s with
      | Except.ok reg' => load_mcp_config reg' rest
      | Except.error regE => (regE, true)

/-- A handle whose connect step fails, advertising nothing. -/
def badServer : MCPServer := { connectOk := false, tools := [] }

/-- A healthy handle advertising one capability named `t2`. -/
def goodServer : MCPServer :=
  { connectOk := true
    tools := [{ name := "t2", tool := { foldable := false, fn := id }
                initOk := true }] }

/-- Claim C8, counterexample.  With configuration `[failing handle,
healthy handle]`, loading aborts at the first handle's failure: the
healthy handle's capability `t2` is never registered, contradicting
"capabilities from the other handles in the same configuration are still
registered". -/
theorem load_mcp_config_aborts_rest_cex :
    (load_mcp_config [] [badServer, goodServer]).1.map Prod.fst = [] ∧
    (load_mcp_config [] [badServer, goodServer]).2 = true ∧
    (load_mcp_config [] [goodServer]).1.map Prod.fst = ["t2"] := by
  exact ⟨rfl, rfl, rfl⟩

/-- A handle on which `load_mcp_config` raises: failed connect or some
failing per-tool `init()`. -/
def serverFails (s : MCPServer) : Prop :=
  s.connectOk = false ∨ ∃ t ∈ s.tools, t.initOk = false

/-- A handle processed without raising. -/
def serverOk (s : MCPServer) : Prop :=
  s.connectOk = true ∧ ∀ t ∈ s.tools, t.initOk = true

theorem registerTools_ok (ts : List MCPToolSpec)
    (h : ∀ t ∈ ts, t.initOk = true) :
    ∀ reg, ∃ reg', registerTools reg ts = Except.ok reg' := by
  induction ts with
  | nil => intro reg; exact ⟨reg, rfl⟩
  | cons t rest ih =>
    intro reg
    have ht := h t (List.mem_cons_self t rest)
    have := ih (fun x hx => h x (List.mem_cons_of_mem t hx))
      (dictInsert reg t.name t.tool)
    simpa [registerTools, ht] using this

theorem registerTools_fails (ts : List MCPToolSpec)
    (h : ∃ t ∈ ts, t.initOk = false) :
    ∀ reg, ∃ regE, registerTools reg ts = Except.error regE := by
  induction ts with
  | nil =>
    intro reg
    exact absurd h (by simp)
  | cons t rest ih =>
    intro reg
    by_cases hinit : t.initOk = true
    · obtain ⟨u, hu, hfail⟩ := h
      rcases List.mem_cons.mp hu with h1 | h1
      · rw [h1, hinit] at hfail; cases hfail
      · obtain ⟨regE, hE⟩ := ih ⟨u, h1, hfail⟩
          (dictInsert reg t.name t.tool)
        exact ⟨regE, by simpa [registerTools, hinit] using hE⟩
    · exact ⟨reg, by simp [registerTools, hinit]⟩

/-- Loading a configuration whose first handles all succeed and whose
next handle fails is independent of every handle listed after the
failure. -/
theorem load_mcp_config_drops_post (bad : MCPServer)
    (hbad : serverFails bad) :
    ∀ (pre : List MCPServer) (post : List MCPServer)
      (reg : List (String × SimpleTool)),
      (∀ s ∈ pre, serverOk s) →
      load_mcp_config reg (pre ++ bad :: post) =
        ((load_mcp_config reg (pre ++ [bad])).1, true) := by
  intro pre
  induction pre with
  | nil =>
    intro post reg _
    have hfail : ∃ regE, connect_to_mcp_server reg bad =
        Except.error regE := by
      rcases hbad with h | h
      · exact ⟨reg, by simp [connect_to_mcp_server, h]⟩
      · obtain ⟨regE, hE⟩ := registerTools_fails bad.tools h reg
        cases hcon : bad.connectOk with
        | false => exact ⟨reg, by simp [connect_to_mcp_server, hcon]⟩
        | true => exact ⟨regE, by simp [connect_to_mcp_server, hcon, hE]⟩
    obtain ⟨regE, hE⟩ := hfail
    simp [load_mcp_config, hE]
  | cons s pre' ih =>
    intro post reg hok
    have hs := hok s (List.mem_cons_self s pre')
    obtain ⟨reg', hreg'⟩ :=
      registerTools_ok s.tools (fun t ht => hs.2 t ht) reg
    have hcon : connect_to_mcp_server reg s = Except.ok reg' := by
      simp [connect_to_mcp_server, hs.1, hreg']
    simp only [List.cons_append, load_mcp_config, hcon]
    exact ih post reg' fun x hx => hok x (List.mem_cons_of_mem s hx)

theorem lookup_overwriteKey_isSome (n m : String) (t : SimpleTool) :
    ∀ reg : List (String × SimpleTool),
      (lookupTool (overwriteKey n t reg) m).isSome =
        (lookupTool reg m).isSome := by
  intro reg
  induction reg with
  | nil => rfl
  | cons p rest ih =>
    obtain ⟨k, v⟩ := p
    by_cases hk : k = n
    · subst hk
      rw [overwriteKey, if_pos rfl]
      by_cases hkm : k = m
      · simp [lookupTool, hkm]
      · rw [lookupTool, lookupTool, if_neg hkm, if_neg hkm]
        exact ih
    · rw [overwriteKey, if_neg hk]
      by_cases hkm : k = m
      · simp [lookupTool, hkm]
      · rw [lookupTool, lookupTool, if_neg hkm, if_neg hkm]
        exact ih

theorem lookup_append_single_isSome (n m : String) (t : SimpleTool) :
    ∀ reg : List (String × SimpleTool),
      (lookupTool reg m).isSome →
      (lookupTool (reg ++ [(n, t)]) m).isSome := by
  intro reg
  induction reg with
  | nil => intro h; simp [lookupTool] at h
  | cons p rest ih =>
    obtain ⟨k, v⟩ := p
    intro h
    by_cases hkm : k = m
    · simp [lookupTool, hkm]
    · rw [lookupTool, if_neg hkm] at h
      rw [List.cons_append, lookupTool, if_neg hkm]
      exact ih h

/-- One dict assignment never loses a registered name. -/
theorem lookup_dictInsert_isSome (reg : List (String × SimpleTool))
    (n m : String) (t : SimpleTool) (h : (lookupTool reg m).isSome) :
    (lookupTool (dictInsert reg n t) m).isSome := by
  unfold dictInsert
  by_cases hn : (lookupTool reg n).isSome
  · rw [if_pos hn, lookup_overwriteKey_isSome]
    exact h
  · rw [if_neg hn]
    exact lookup_append_single_isSome n m t reg h

theorem registerTools_keeps_names (m : String) :
    ∀ (ts : List MCPToolSpec) (reg : List (String × SimpleTool)),
      (lookupTool reg m).isSome →
      (lookupTool (match registerTools reg ts with
        | Except.ok r => r
        | Except.error r => r) m).isSome := by
  intro ts
  induction ts with
  | nil => intro reg h; exact h
  | cons t rest ih =>
    intro reg h
    by_cases hinit : t.initOk = true
    · have := ih (dictInsert reg t.name t.tool)
        (lookup_dictInsert_isSome reg t.name m t.tool h)
      simpa [registerTools, hinit] using this
    · simpa [registerTools, hinit] using h

/-- Claim C8, amended, persistence part.  Whatever handles are loaded and
wherever a failure strikes, every previously registered capability name
is still present in the registry afterwards (a same-named discovered tool
may overwrite the binding, as dict assignment does). -/
theorem load_mcp_config_keeps_names (m : String) :
    ∀ (servers : List MCPServer) (reg : List (String × SimpleTool)),
      (lookupTool reg m).isSome →
      (lookupTool (load_mcp_config reg servers).1 m).isSome := by
  intro servers
  induction servers with
  | nil => intro reg h; exact h
  | cons s rest ih =>
    intro reg h
    unfold load_mcp_config connect_to_mcp_server
    cases hcon : s.connectOk with
    | false => simpa using h
    | true =>
      simp only [if_pos rfl]
      have hkeep := registerTools_keeps_names m s.tools reg h
      cases hreg : registerTools reg s.tools with
      | ok r =>
        rw [hreg] at hkeep
        exact ih r hkeep
      | error r =>
        rw [hreg] at hkeep
        simpa using hkeep

/-- Witness for the amended C8 (`load_mcp_config_drops_post` +
`load_mcp_config_keeps_names` at concrete inputs): a pre-registered
capability `t0` survives a failing load, and the handles after the
failure are dropped while the healthy handle before it is registered. -/
theorem load_mcp_config_amended_witness :
    (load_mcp_config [("t0", { foldable := false, fn := id })]
        [goodServer, badServer, goodServer] =
      ((load_mcp_config [("t0", { foldable := false, fn := id })]
        [goodServer, badServer]).1, true)) ∧
    (lookupTool (load_mcp_config [("t0", { foldable := false, fn := id })]
        [goodServer, badServer, goodServer]).1 "t0").isSome = true := by
  constructor
  · exact load_mcp_config_drops_post badServer (Or.inl rfl) [goodServer]
      [goodServer] [("t0", { foldable := false, fn := id })]
      (by intro s hs
          simp only [List.mem_singleton] at hs
          subst hs
          exact ⟨rfl, by intro t ht; simp [goodServer] at ht; rw [ht]⟩)
  · exact load_mcp_config_keeps_names "t0"
      [goodServer, badServer, goodServer]
      [("t0", { foldable := false, fn := id })] (by simp [lookupTool])

/-! ## Lifecycle Manager: `_fold_previous_tool_results`
(source lines 263-284)

```python
if not self._tools:
    return
for index, _message in enumerate(self.messages):
    if not _message.get("tool_calls"):
        continue
    for tool_call in _message["tool_calls"]:
        tool_name = tool_call["function"]["name"]
        if not self._tools.get(tool_name): continue
        if not self._tools[tool_name].foldable: continue
        for i in range(index + 1, len(self.messages)):
            if self.messages[i].get("role") != "tool": continue
            if self.messages[i].get("tool_call_id") == tool_call["id"]:
                self.messages[i] = {"role": "tool",
                                    "content": "The result has been folded",
                                    "tool_call_id": tool_call["id"]}
                break
```

The outer loop reads each element of the live list at its index (only
positions strictly greater than the current index are ever replaced, so
the read value is final for that position), and the inner scan replaces
the first matching tool message after the call's position with a fixed
placeholder.  The list length never changes. -/

/-- The placeholder a folded tool result is replaced with: only `role`,
the fixed content, and the `tool_call_id` — no `time`, `name` or
`tool_calls` keys. -/
def placeholderMsg (idv : String) : Message :=
  { role := "tool", content := some "The result has been folded"
    time := none, name := none, tool_calls := none
    tool_call_id := some idv }

/-- The fields of a message the fold scan reads: role and tool_call_id. -/
def msig (m : Message) : String × Option String :=
  (m.role, m.tool_call_id)

/-- The inner-scan match condition (source lines 276-278):
`role == "tool"` and `tool_call_id == call id`. -/
def foldMatch (callId : String) (m : Message) : Bool :=
  m.role == "tool" && m.tool_call_id == some callId

/-- The scan of `range(index+1, len)` replacing the first match, here on
the suffix after the call's position. -/
def foldFirstMatch (callId : String) : List Message → List Message
  | [] => []
  | m :: rest =>
      if foldMatch callId m then placeholderMsg callId :: rest
      else m :: foldFirstMatch callId rest

/-- The inner scan of one foldable call sitting at position `k`: walk
past the first `k+1` messages, then replace the first match. -/
def foldAt (callId : String) : Nat → List Message → List Message
  | _, [] => []
  | 0, m :: rest => m :: foldFirstMatch callId rest
  | k + 1, m :: rest => m :: foldAt callId k rest

/-- Processing of one tool call of an assistant message (source lines
269-284): skip unless the registry holds a foldable capability of that
name, else run the scan. -/
def processCall (tools : List (String × SimpleTool)) (index : Nat)
    (st : List Message) (tc : ToolCallParam) : List Message :=
  match lookupTool tools tc.function.name with
  | none => st
  | some t => if t.foldable then foldAt tc.id index st else st

/-- One iteration of the outer loop at `index`: read the live element
there; if it carries tool calls, run each through `processCall` (an
absent or empty `tool_calls` key is skipped; the fold over `[]` is the
same skip). -/
def foldStep (tools : List (String × SimpleTool)) (st : List Message)
    (index : Nat) : List Message :=
  match st[index]? with
  | none => st
  | some m =>
      match m.tool_calls with
      | none => st
      | some tcs => tcs.foldl (processCall tools index) st

/-- `_fold_previous_tool_results()` (source lines 263-284). -/
def fold_previous_tool_results (tools : List (String × SimpleTool))
    (msgs : List Message) : List Message :=
  if tools.isEmpty then msgs
  else (List.range msgs.length).foldl (foldStep tools) msgs

/-- Position of the first match in a message list. -/
def firstMatchPos (callId : String) : List Message → Option Nat
  | [] => none
  | m :: rest =>
      if foldMatch callId m then some 0
      else (firstMatchPos callId rest).map (· + 1)

/-- Absolute position the scan of a call at position `k` would replace. -/
def foldTargetFrom (callId : String) : Nat → List Message → Option Nat
  | _, [] => none
  | 0, _ :: rest => (firstMatchPos callId rest).map (· + 1)
  | k + 1, _ :: rest => (foldTargetFrom callId k rest).map (· + 1)

theorem foldMatch_of_msig_eq (callId : String) (m m' : Message)
    (h : msig m = msig m') : foldMatch callId m = foldMatch callId m' := by
  unfold msig at h
  obtain ⟨h1, h2⟩ := Prod.mk.injEq .. ▸ h
  unfold foldMatch
  rw [h1, h2]

theorem foldMatch_placeholder (callId idv : String) :
    foldMatch callId (placeholderMsg idv) = (idv == callId) := by
  unfold foldMatch placeholderMsg
  simp

theorem foldMatch_iff (callId : String) (m : Message) :
    foldMatch callId m = true ↔
      m.role = "tool" ∧ m.tool_call_id = some callId := by
  unfold foldMatch
  simp

theorem foldFirstMatch_eq_set (callId : String) :
    ∀ l : List Message,
      foldFirstMatch callId l =
        match firstMatchPos callId l with
        | none => l
        | some j => l.set j (placeholderMsg callId) := by
  intro l
  induction l with
  | nil => rfl
  | cons m rest ih =>
    unfold foldFirstMatch firstMatchPos
    by_cases hm : foldMatch callId m
    · rw [if_pos hm, if_pos hm]
      rfl
    · rw [if_neg hm, if_neg hm, ih]
      cases firstMatchPos callId rest with
      | none => rfl
      | some j => rfl

theorem foldAt_eq_set (callId : String) :
    ∀ (k : Nat) (l : List Message),
      foldAt callId k l =
        match foldTargetFrom callId k l with
        | none => l
        | some p => l.set p (placeholderMsg callId) := by
  intro k
  induction k with
  | zero =>
    intro l
    cases l with
    | nil => rfl
    | cons m rest =>
      unfold foldAt foldTargetFrom
      rw [foldFirstMatch_eq_set]
      cases firstMatchPos callId rest with
      | none => rfl
      | some j => rfl
  | succ k ih =>
    intro l
    cases l with
    | nil => rfl
    | cons m rest =>
      unfold foldAt foldTargetFrom
      rw [ih]
      cases foldTargetFrom callId k rest with
      | none => rfl
      | some p => rfl

theorem firstMatchPos_sig (callId : String) :
    ∀ l l' : List Message, l.map msig = l'.map msig →
      firstMatchPos callId l = firstMatchPos callId l' := by
  intro l
  induction l with
  | nil =>
    intro l' h
    cases l' with
    | nil => rfl
    | cons m' rest' => simp at h
  | cons m rest ih =>
    intro l' h
    cases l' with
    | nil => simp at h
    | cons m' rest' =>
      simp only [List.map_cons, List.cons.injEq] at h
      unfold firstMatchPos
      rw [foldMatch_of_msig_eq callId m m' h.1, ih rest' h.2]

theorem foldTargetFrom_sig (callId : String) :
    ∀ (k : Nat) (l l' : List Message), l.map msig = l'.map msig →
      foldTargetFrom callId k l = foldTargetFrom callId k l' := by
  intro k
  induction k with
  | zero =>
    intro l l' h
    cases l with
    | nil => cases l' with
      | nil => rfl
      | cons m' rest' => simp at h
    | cons m rest =>
      cases l' with
      | nil => simp at h
      | cons m' rest' =>
        simp only [List.map_cons, List.cons.injEq] at h
        unfold foldTargetFrom
        rw [firstMatchPos_sig callId rest rest' h.2]
  | succ k ih =>
    intro l l' h
    cases l with
    | nil => cases l' with
      | nil => rfl
      | cons m' rest' => simp at h
    | cons m rest =>
      cases l' with
      | nil => simp at h
      | cons m' rest' =>
        simp only [List.map_cons, List.cons.injEq] at h
        unfold foldTargetFrom
        rw [ih rest rest' h.2]

theorem firstMatchPos_spec (callId : String) :
    ∀ (l : List Message) (j : Nat), firstMatchPos callId l = some j →
      ∃ m, l[j]? = some m ∧ foldMatch callId m = true := by
  intro l
  induction l with
  | nil => intro j h; cases h
  | cons m rest ih =>
    intro j h
    unfold firstMatchPos at h
    by_cases hm : foldMatch callId m
    · rw [if_pos hm] at h
      cases h
      exact ⟨m, by simp, hm⟩
    · rw [if_neg hm] at h
      cases hp : firstMatchPos callId rest with
      | none => rw [hp] at h; cases h
      | some j' =>
        rw [hp] at h
        simp only [Option.map_some', Option.some.injEq] at h
        obtain ⟨m', hm', hmatch⟩ := ih j' hp
        exact ⟨m', by rw [← h]; simpa using hm', hmatch⟩

theorem foldTargetFrom_spec (callId : String) :
    ∀ (k : Nat) (l : List Message) (p : Nat),
      foldTargetFrom callId k l = some p →
      k < p ∧ ∃ m, l[p]? = some m ∧ foldMatch callId m = true := by
  intro k
  induction k with
  | zero =>
    intro l p h
    cases l with
    | nil => cases h
    | cons m rest =>
      unfold foldTargetFrom at h
      cases hp : firstMatchPos callId rest with
      | none => rw [hp] at h; cases h
      | some j =>
        rw [hp] at h
        simp only [Option.map_some', Option.some.injEq] at h
        obtain ⟨m', hm', hmatch⟩ := firstMatchPos_spec callId rest j hp
        subst h
        exact ⟨Nat.succ_pos j, m', by simpa using hm', hmatch⟩
  | succ k ih =>
    intro l p h
    cases l with
    | nil => cases h
    | cons m rest =>
      unfold foldTargetFrom at h
      cases hp : foldTargetFrom callId k rest with
      | none => rw [hp] at h; cases h
      | some p' =>
        rw [hp] at h
        simp only [Option.map_some', Option.some.injEq] at h
        obtain ⟨hlt, m', hm', hmatch⟩ := ih rest p' hp
        subst h
        exact ⟨Nat.succ_lt_succ hlt, m', by simpa using hm', hmatch⟩

theorem set_getElem?_self (v : Message) :
    ∀ (l : List Message) (p : Nat), l[p]? = some v → l.set p v = l := by
  intro l
  induction l with
  | nil => intro p h; cases h
  | cons m rest ih =>
    intro p h
    cases p with
    | zero =>
      simp only [List.getElem?_cons_zero, Option.some.injEq] at h
      rw [List.set_cons_zero, h]
    | succ p' =>
      simp only [List.getElem?_cons_succ] at h
      rw [List.set_cons_succ, ih p' h]

/-- Frame invariant of folding relative to the input list `m`: every
position either still holds its original message, or holds the
placeholder of a matching original tool message. -/
def OptInv (m s : List Message) : Prop :=
  ∀ i : Nat, s[i]? = m[i]? ∨
    ∃ idv msg, m[i]? = some msg ∧ foldMatch idv msg = true ∧
      s[i]? = some (placeholderMsg idv)

/-- Position `j` is fully processed in `s`: every foldable call of the
message at `j` has its scan target (if any) already holding that call's
placeholder. -/
def FoldedAt (tools : List (String × SimpleTool)) (s : List Message)
    (j : Nat) : Prop :=
  ∀ msg tcs, s[j]? = some msg → msg.tool_calls = some tcs →
    ∀ tc ∈ tcs, ∀ t, lookupTool tools tc.function.name = some t →
      t.foldable = true →
      ∀ p, foldTargetFrom tc.id j s = some p →
        s[p]? = some (placeholderMsg tc.id)

theorem map_msig_set_of_match (idv : String) :
    ∀ (l : List Message) (p : Nat) (msg : Message),
      l[p]? = some msg → foldMatch idv msg = true →
      (l.set p (placeholderMsg idv)).map msig = l.map msig := by
  intro l
  induction l with
  | nil => intro p msg h _; cases h
  | cons m rest ih =>
    intro p msg h hmatch
    cases p with
    | zero =>
      simp only [List.getElem?_cons_zero, Option.some.injEq] at h
      rw [List.set_cons_zero]
      simp only [List.map_cons, List.cons.injEq]
      refine ⟨?_, trivial⟩
      obtain ⟨h1, h2⟩ := (foldMatch_iff idv msg).mp hmatch
      rw [h]
      unfold msig placeholderMsg
      rw [h1, h2]
    | succ p' =>
      simp only [List.getElem?_cons_succ] at h
      rw [List.set_cons_succ]
      simp only [List.map_cons, List.cons.injEq]
      exact ⟨trivial, ih p' msg h hmatch⟩

/-- All effects of writing the placeholder of a matching message. -/
theorem placeholder_write_props (st : List Message) (p : Nat)
    (idv : String) (msg : Message) (hp : st[p]? = some msg)
    (hmatch : foldMatch idv msg = true) :
    (st.set p (placeholderMsg idv)).map msig = st.map msig ∧
    (∀ q, q ≠ p → (st.set p (placeholderMsg idv))[q]? = st[q]?) ∧
    (st.set p (placeholderMsg idv))[p]? = some (placeholderMsg idv) ∧
    (∀ (q : Nat) (idv' : String), st[q]? = some (placeholderMsg idv') →
      (st.set p (placeholderMsg idv))[q]? = some (placeholderMsg idv')) := by
  have hlen : p < st.length := by
    cases hlt : decide (p < st.length) with
    | true => exact of_decide_eq_true hlt
    | false =>
      have : st[p]? = none :=
        List.getElem?_eq_none (Nat.le_of_not_lt (of_decide_eq_false hlt))
      rw [this] at hp; cases hp
  refine ⟨map_msig_set_of_match idv st p msg hp hmatch, ?_, ?_, ?_⟩
  · intro q hq
    rw [List.getElem?_set_ne hq.symm]
  · rw [List.getElem?_set_eq_of_lt _ hlen]
  · intro q idv' hq
    by_cases hqp : q = p
    · subst hqp
      rw [hq] at hp
      cases hp
      have hroleid := (foldMatch_iff idv (placeholderMsg idv')).mp hmatch
      have hid : some idv' = some idv := by
        have h2 := hroleid.2
        unfold placeholderMsg at h2
        exact h2
      cases hid
      rw [List.getElem?_set_eq_of_lt _ hlen]
    · rw [List.getElem?_set_ne (Ne.symm hqp)]
      exact hq

/-- What `processCall` can do: nothing, or one placeholder write at its
scan target. -/
theorem processCall_cases (tools : List (String × SimpleTool)) (k : Nat)
    (st : List Message) (tc : ToolCallParam) :
    processCall tools k st tc = st ∨
    ∃ t p msg, lookupTool tools tc.function.name = some t ∧
      t.foldable = true ∧ foldTargetFrom tc.id k st = some p ∧ k < p ∧
      st[p]? = some msg ∧ foldMatch tc.id msg = true ∧
      processCall tools k st tc = st.set p (placeholderMsg tc.id) := by
  cases hl : lookupTool tools tc.function.name with
  | none => exact Or.inl (by simp [processCall, hl])
  | some t =>
    by_cases hf : t.foldable
    · have hpc : processCall tools k st tc = foldAt tc.id k st := by
        simp [processCall, hl, hf]
      rw [hpc, foldAt_eq_set]
      cases ht : foldTargetFrom tc.id k st with
      | none => exact Or.inl rfl
      | some p =>
        obtain ⟨hlt, msg, hmsg, hmatch⟩ :=
          foldTargetFrom_spec tc.id k st p ht
        exact Or.inr ⟨t, p, msg, rfl, hf, rfl, hlt, hmsg, hmatch, rfl⟩
    · have hpc : processCall tools k st tc = st := by
        simp only [processCall, hl]
        rw [if_neg hf]
      exact Or.inl hpc

/-- Combined invariant transfer of processing one call list at outer
position `k`: signatures and the frame invariant are preserved, positions
up to `k` are untouched, existing placeholders survive, and every
foldable call of the list ends with its scan target holding its
placeholder. -/
theorem stepCalls_props (tools : List (String × SimpleTool)) (k : Nat)
    (m : List Message) :
    ∀ (tcs : List ToolCallParam) (st : List Message),
      st.map msig = m.map msig → OptInv m st →
      (tcs.foldl (processCall tools k) st).map msig = m.map msig ∧
      OptInv m (tcs.foldl (processCall tools k) st) ∧
      (∀ q ≤ k, (tcs.foldl (processCall tools k) st)[q]? = st[q]?) ∧
      (∀ (q : Nat) (idv : String), st[q]? = some (placeholderMsg idv) →
        (tcs.foldl (processCall tools k) st)[q]? =
          some (placeholderMsg idv)) ∧
      (∀ tc ∈ tcs, ∀ t, lookupTool tools tc.function.name = some t →
        t.foldable = true →
        ∀ p, foldTargetFrom tc.id k
            (tcs.foldl (processCall tools k) st) = some p →
          (tcs.foldl (processCall tools k) st)[p]? =
            some (placeholderMsg tc.id)) := by
  intro tcs
  induction tcs with
  | nil =>
    intro st hsig hopt
    refine ⟨hsig, hopt, fun q _ => rfl, fun q idv h => h, ?_⟩
    intro tc htc
    exact absurd htc (List.not_mem_nil tc)
  | cons tc rest ih =>
    intro st hsig hopt
    rcases processCall_cases tools k st tc with hid | hwrite
    · -- the head call changes nothing
      have hred : (tc :: rest).foldl (processCall tools k) st =
          rest.foldl (processCall tools k) st := by
        rw [List.foldl_cons, hid]
      obtain ⟨ih1, ih2, ih3, ih4, ih5⟩ := ih st hsig hopt
      rw [hred]
      refine ⟨ih1, ih2, ih3, ih4, ?_⟩
      intro tc' htc' t hl hf p hp
      rcases List.mem_cons.mp htc' with h1 | h1
      · -- the head call was inert although its tool is foldable and
        -- registered: either the scan found nothing, or the target
        -- already held this call's placeholder
        subst h1
        have hstable : foldTargetFrom tc'.id k
            (rest.foldl (processCall tools k) st) =
              foldTargetFrom tc'.id k st :=
          foldTargetFrom_sig tc'.id k _ st (by rw [ih1, hsig])
        rw [hstable] at hp
        have hpc : processCall tools k st tc' =
            st.set p (placeholderMsg tc'.id) := by
          simp only [processCall, hl]
          rw [if_pos hf, foldAt_eq_set, hp]
        have hseteq : st.set p (placeholderMsg tc'.id) = st := by
          rw [← hpc, hid]
        obtain ⟨_, msg0, hmsg0, _⟩ :=
          foldTargetFrom_spec tc'.id k st p hp
        have hlen0 : p < st.length := by
          cases hlt : decide (p < st.length) with
          | true => exact of_decide_eq_true hlt
          | false =>
            have hnone : st[p]? = none := List.getElem?_eq_none
              (Nat.le_of_not_lt (of_decide_eq_false hlt))
            rw [hnone] at hmsg0; cases hmsg0
        have hph : st[p]? = some (placeholderMsg tc'.id) := by
          have hcong := congrArg (fun l => l[p]?) hseteq
          simp only at hcong
          rw [List.getElem?_set_eq_of_lt _ hlen0] at hcong
          exact hcong.symm
        exact ih4 p tc'.id hph
      · exact ih5 tc' h1 t hl hf p hp
    · obtain ⟨t, p0, msg0, hl, hf, htgt, hklt, hmsg0, hmatch0, hpc⟩ := hwrite
      obtain ⟨w1, w2, w3, w4⟩ :=
        placeholder_write_props st p0 tc.id msg0 hmsg0 hmatch0
      have hred : (tc :: rest).foldl (processCall tools k) st =
          rest.foldl (processCall tools k)
            (st.set p0 (placeholderMsg tc.id)) := by
        rw [List.foldl_cons, hpc]
      have hsig1 : (st.set p0 (placeholderMsg tc.id)).map msig =
          m.map msig := by rw [w1, hsig]
      have hopt1 : OptInv m (st.set p0 (placeholderMsg tc.id)) := by
        intro i
        by_cases hip : i = p0
        · subst hip
          right
          have hmapi := congrArg (fun l => l[i]?) hsig
          simp only [List.getElem?_map] at hmapi
          rw [hmsg0] at hmapi
          cases hmi : m[i]? with
          | none => rw [hmi] at hmapi; simp at hmapi
          | some mi =>
            rw [hmi] at hmapi
            simp only [Option.map_some', Option.some.injEq] at hmapi
            refine ⟨tc.id, mi, rfl, ?_, w3⟩
            rw [← foldMatch_of_msig_eq tc.id msg0 mi hmapi]
            exact hmatch0
        · rcases hopt i with h | ⟨idv, msg, hmi, hmatch, hsi⟩
          · left; rw [w2 i hip, h]
          · right; exact ⟨idv, msg, hmi, hmatch, by rw [w2 i hip, hsi]⟩
      obtain ⟨ih1, ih2, ih3, ih4, ih5⟩ := ih _ hsig1 hopt1
      rw [hred]
      refine ⟨ih1, ih2, ?_, ?_, ?_⟩
      · intro q hq
        rw [ih3 q hq, w2 q (by omega)]
      · intro q idv hq
        exact ih4 q idv (w4 q idv hq)
      · intro tc' htc' t' hl' hf' p hp
        rcases List.mem_cons.mp htc' with h1 | h1
        · subst h1
          have hstable : foldTargetFrom tc'.id k
              (rest.foldl (processCall tools k)
                (st.set p0 (placeholderMsg tc'.id))) =
                foldTargetFrom tc'.id k st := by
            refine foldTargetFrom_sig tc'.id k _ st ?_
            rw [ih1, hsig]
          rw [hstable, htgt] at hp
          cases hp
          exact ih4 p0 tc'.id w3
        · exact ih5 tc' h1 t' hl' hf' p hp

theorem foldl_fixed {α β : Type} (f : α → β → α) (a : α) :
    ∀ l : List β, (∀ x ∈ l, f a x = a) → l.foldl f a = a := by
  intro l
  induction l with
  | nil => intro _; rfl
  | cons x rest ih =>
    intro h
    rw [List.foldl_cons, h x (List.mem_cons_self x rest)]
    exact ih fun y hy => h y (List.mem_cons_of_mem x hy)

theorem foldStep_eq_of_none (tools : List (String × SimpleTool))
    (st : List Message) (k : Nat) (h : st[k]? = none) :
    foldStep tools st k = st := by
  simp [foldStep, h]

theorem foldStep_eq_of_no_calls (tools : List (String × SimpleTool))
    (st : List Message) (k : Nat) (msg : Message)
    (hk : st[k]? = some msg) (htc : msg.tool_calls = none) :
    foldStep tools st k = st := by
  simp [foldStep, hk, htc]

theorem foldStep_eq_of_calls (tools : List (String × SimpleTool))
    (st : List Message) (k : Nat) (msg : Message)
    (tcs : List ToolCallParam) (hk : st[k]? = some msg)
    (htc : msg.tool_calls = some tcs) :
    foldStep tools st k = tcs.foldl (processCall tools k) st := by
  simp [foldStep, hk, htc]

/-- Invariant transfer of the outer loop over the index segment
`[k, k+c)`: signatures and the frame invariant are preserved, and every
index below `k + c` ends fully processed. -/
theorem foldRun_props (tools : List (String × SimpleTool))
    (m : List Message) :
    ∀ (c k : Nat) (st : List Message),
      st.map msig = m.map msig → OptInv m st →
      (∀ j, j < k → FoldedAt tools st j) →
      ((List.range' k c).foldl (foldStep tools) st).map msig =
          m.map msig ∧
      OptInv m ((List.range' k c).foldl (foldStep tools) st) ∧
      (∀ j, j < k + c →
        FoldedAt tools ((List.range' k c).foldl (foldStep tools) st) j) := by
  intro c
  induction c with
  | zero =>
    intro k st hsig hopt hdone
    exact ⟨hsig, hopt, fun j hj => hdone j (by omega)⟩
  | succ c ih =>
    intro k st hsig hopt hdone
    rw [List.range'_succ]
    simp only [List.foldl_cons]
    -- facts about the single step at index k
    have hstep : (foldStep tools st k).map msig = m.map msig ∧
        OptInv m (foldStep tools st k) ∧
        (∀ q ≤ k, (foldStep tools st k)[q]? = st[q]?) ∧
        (∀ (q : Nat) (idv : String),
          st[q]? = some (placeholderMsg idv) →
          (foldStep tools st k)[q]? = some (placeholderMsg idv)) ∧
        FoldedAt tools (foldStep tools st k) k := by
      cases hk : st[k]? with
      | none =>
        rw [foldStep_eq_of_none tools st k hk]
        refine ⟨hsig, hopt, fun q _ => rfl, fun q idv h => h, ?_⟩
        intro msg tcs hmsg
        rw [hk] at hmsg
        cases hmsg
      | some msg =>
        cases htc : msg.tool_calls with
        | none =>
          rw [foldStep_eq_of_no_calls tools st k msg hk htc]
          refine ⟨hsig, hopt, fun q _ => rfl, fun q idv h => h, ?_⟩
          intro msg' tcs hmsg' htcs
          rw [hk] at hmsg'
          cases hmsg'
          rw [htc] at htcs
          cases htcs
        | some tcs =>
          rw [foldStep_eq_of_calls tools st k msg tcs hk htc]
          obtain ⟨s1, s2, s3, s4, s5⟩ :=
            stepCalls_props tools k m tcs st hsig hopt
          refine ⟨s1, s2, s3, s4, ?_⟩
          intro msg' tcs' hmsg' htcs'
          rw [s3 k (Nat.le_refl k), hk] at hmsg'
          cases hmsg'
          rw [htc] at htcs'
          cases htcs'
          exact s5
    obtain ⟨h1, h2, h3, h4, h5⟩ := hstep
    have hprev : ∀ j, j < k + 1 → FoldedAt tools (foldStep tools st k) j := by
      intro j hj
      by_cases hjk : j = k
      · subst hjk; exact h5
      · have hjlt : j < k := by omega
        intro msg tcs hmsg htcs tc htc' t hl hf p hp
        rw [h3 j (Nat.le_of_lt hjlt)] at hmsg
        have hstable : foldTargetFrom tc.id j (foldStep tools st k) =
            foldTargetFrom tc.id j st :=
          foldTargetFrom_sig tc.id j _ st (by rw [h1, hsig])
        rw [hstable] at hp
        exact h4 p tc.id
          (hdone j hjlt msg tcs hmsg htcs tc htc' t hl hf p hp)
    obtain ⟨r1, r2, r3⟩ := ih (k + 1) (foldStep tools st k) h1 h2 hprev
    exact ⟨r1, r2, fun j hj => r3 j (by omega)⟩

/-- The outer-loop body does nothing at a fully processed index. -/
theorem foldStep_fixed (tools : List (String × SimpleTool))
    (s : List Message) (k : Nat) (hfold : FoldedAt tools s k) :
    foldStep tools s k = s := by
  cases hk : s[k]? with
  | none => exact foldStep_eq_of_none tools s k hk
  | some msg =>
    cases htc : msg.tool_calls with
    | none => exact foldStep_eq_of_no_calls tools s k msg hk htc
    | some tcs =>
      rw [foldStep_eq_of_calls tools s k msg tcs hk htc]
      refine foldl_fixed _ s tcs ?_
      intro tc htc'
      rcases processCall_cases tools k s tc with
        h | ⟨t, p, msg0, hl, hf, htgt, _, hmsg0, _, hpc⟩
      · exact h
      · have hP := hfold msg tcs hk htc tc htc' t hl hf p htgt
        rw [hpc]
        exact set_getElem?_self _ s p hP

/-- Claim C5.  `_fold_previous_tool_results` is idempotent: applying it
twice, for any registry and message list, yields the same list as
applying it once — the second pass finds every scan target already
holding its placeholder and changes nothing. -/
theorem fold_previous_idempotent (tools : List (String × SimpleTool))
    (msgs : List Message) :
    fold_previous_tool_results tools (fold_previous_tool_results tools msgs)
      = fold_previous_tool_results tools msgs := by
  unfold fold_previous_tool_results
  by_cases he : tools.isEmpty
  · rw [if_pos he, if_pos he]
  · rw [if_neg he, if_neg he]
    have hrun := foldRun_props tools msgs msgs.length 0 msgs rfl
      (fun i => Or.inl rfl) (fun j hj => absurd hj (Nat.not_lt_zero j))
    rw [← List.range_eq_range'] at hrun
    obtain ⟨h1, _, h3⟩ := hrun
    have hlen : ((List.range msgs.length).foldl (foldStep tools)
        msgs).length = msgs.length := by
      have := congrArg List.length h1
      simpa using this
    rw [hlen]
    refine foldl_fixed _ _ _ ?_
    intro j hj
    exact foldStep_fixed tools _ j (h3 j (by simpa using List.mem_range.mp hj))

/-- Claim C10.  Whenever folding changed a position, the new value is
exactly the placeholder of the original tool message there: role
`"tool"`, the fixed content, the original `tool_call_id` — and no `time`
key, so a timestamped tool result loses its timestamp when folded. -/
theorem fold_strips_time (tools : List (String × SimpleTool))
    (msgs : List Message) (i : Nat)
    (h : (fold_previous_tool_results tools msgs)[i]? ≠ msgs[i]?) :
    ∃ idv orig, msgs[i]? = some orig ∧ orig.role = "tool" ∧
      orig.tool_call_id = some idv ∧
      (fold_previous_tool_results tools msgs)[i]? =
        some (placeholderMsg idv) ∧
      (placeholderMsg idv).time = none := by
  unfold fold_previous_tool_results at h ⊢
  by_cases he : tools.isEmpty
  · rw [if_pos he] at h
    exact absurd rfl h
  · rw [if_neg he] at h ⊢
    have hrun := foldRun_props tools msgs msgs.length 0 msgs rfl
      (fun i => Or.inl rfl) (fun j hj => absurd hj (Nat.not_lt_zero j))
    rw [← List.range_eq_range'] at hrun
    rcases hrun.2.1 i with heq | ⟨idv, orig, hmi, hmatch, hsi⟩
    · exact absurd heq h
    · obtain ⟨hrole, hid⟩ := (foldMatch_iff idv orig).mp hmatch
      exact ⟨idv, orig, hmi, hrole, hid, hsi, rfl⟩

/-- A registry with one foldable capability `ft`, for the witnesses. -/
def demoTools : List (String × SimpleTool) :=
  [("ft", { foldable := true, fn := id })]

/-- Store: system message, assistant message calling `ft` (call id
`c1`), and the timestamped tool result of that call. -/
def demoMsgs : List Message :=
  [sysMsg,
   { role := "assistant", content := some ""
     time := some 4, name := none
     tool_calls := some [{ id := "c1", type := "function"
                           function := { name := "ft", arguments := "" } }]
     tool_call_id := none },
   { role := "tool", content := some "big output", time := some 5
     name := none, tool_calls := none, tool_call_id := some "c1" }]

/-- Witness for C10: folding the demo store replaces the timestamped
tool result at position 2 with the placeholder, whose `time` is absent. -/
theorem fold_strips_time_witness :
    ((fold_previous_tool_results demoTools demoMsgs)[2]? ≠
        demoMsgs[2]?) ∧
    (∃ idv orig, demoMsgs[2]? = some orig ∧ orig.role = "tool" ∧
      orig.tool_call_id = some idv ∧
      (fold_previous_tool_results demoTools demoMsgs)[2]? =
        some (placeholderMsg idv) ∧
      (placeholderMsg idv).time = none) :=
  ⟨by decide, fold_strips_time demoTools demoMsgs 2 (by decide)⟩

end EzAgent
